import Mathlib

/-!
Verification development for the fusionn-font repository.

The repository processes ASS subtitle files.  The two components modelled
here are the font-attribution scanner (`ass_parser.py`, class `ASSParser`)
and the binary transcoder / section embedding (`ass_writer.py`).

Modelling conventions:
* Python strings are `List Char`; file content (read with universal-newline
  translation) is a `List (List Char)` of lines, matching the line-anchored
  `re.MULTILINE` patterns of the source.
* Python `dict` values are association lists keeping insertion order;
  a `set[str]` of characters is a duplicate-free `List Char` into which
  elements are inserted only when missing (set semantics; the list order
  merely records first insertion).
* Fallible code (`float(...)` raising `ValueError`) is `Option`.
* All recursive functions are structural so that the kernel can evaluate
  them on concrete inputs.
-/

namespace Fusionn

/-- Characters of a Lean string literal, used to write Python strings. -/
def strChars (s : String) : List Char := s.data

/-- Does `s` start with `pat`?  (List analogue of Python `str.startswith`.) -/
def listStartsWith : List Char → List Char → Bool
  | [], _ => true
  | _ :: _, [] => false
  | p :: ps, c :: cs => if p = c then listStartsWith ps cs else false

/-- Index of the first occurrence of character `ch` in `s`, if any. -/
def findChIdx : List Char → Char → Option Nat
  | [], _ => none
  | c :: tl, ch => if c = ch then some 0 else (findChIdx tl ch).map (· + 1)

/-- Index of the first occurrence of `pat` as a contiguous substring of `s`
(Python `re.search` on a literal pattern; `.start()` of the match). -/
def findSubFrom : List Char → List Char → Option Nat
  | [], _ => none
  | c :: tl, pat =>
    if listStartsWith pat (c :: tl) then some 0
    else (findSubFrom tl pat).map (· + 1)

/-- Split on the comma character; mirrors how the `[^,]*,`-style regex
groups of `ASSParser` consume comma-separated fields. -/
def splitOnComma : List Char → List (List Char)
  | [] => [[]]
  | c :: tl =>
    if c = ',' then [] :: splitOnComma tl
    else
      match splitOnComma tl with
      | p :: ps => (c :: p) :: ps
      | [] => [[c]]

/-- Rejoin comma-separated fields (inverse of `splitOnComma` on its output). -/
def joinComma : List (List Char) → List Char
  | [] => []
  | [p] => p
  | p :: ps => p ++ ',' :: joinComma ps

/-- Python `str.replace old new` for a two-character `old`, scanning left to
right and skipping past each replacement. -/
def replace2 (x y : Char) (new : List Char) : List Char → List Char
  | a :: b :: tl =>
    if a = x ∧ b = y then new ++ replace2 x y new tl
    else a :: replace2 x y new (b :: tl)
  | s => s

/-- Whitespace as recognised by Python `str.strip` / the regex class `\s`
(ASCII part; the inputs of this development are ASCII-spaced). -/
def pyIsSpaceChar (c : Char) : Bool :=
  decide (c = ' ' ∨ c = '\t' ∨ c = '\n' ∨ c = '\r' ∨ c = '\x0b' ∨ c = '\x0c')

/-- Python `str.strip()`. -/
def pyStrip (s : List Char) : List Char :=
  ((s.dropWhile pyIsSpaceChar).reverse.dropWhile pyIsSpaceChar).reverse

/-- Modelled from Python's builtin `str.isprintable` (not repository code):
false for the Unicode `Other`/`Separator` categories except the ASCII
space.  Exact on ASCII; approximate on the higher, rarely-hit code points
(common `Cc`/`Cf`/`Zs`/`Zl`/`Zp` ranges are listed). -/
def pyIsPrintable (c : Char) : Bool :=
  let n := c.toNat
  if n < 0x20 then false
  else if n = 0x7f then false
  else if n < 0x7f then true
  else if n ≤ 0x9f then false
  else if n = 0xa0 then false
  else if n = 0xad then false
  else if n = 0x1680 then false
  else if 0x2000 ≤ n ∧ n ≤ 0x200f then false
  else if n = 0x2028 ∨ n = 0x2029 then false
  else if 0x202a ≤ n ∧ n ≤ 0x202f then false
  else if 0x205f ≤ n ∧ n ≤ 0x2064 then false
  else if n = 0x3000 then false
  else if n = 0xfeff then false
  else true

/-- Exponent suffix of a Python float literal (after the mantissa):
empty, or `e`/`E`, an optional sign and at least one digit. -/
def floatExpOk : List Char → Bool
  | [] => true
  | c :: tl =>
    if c = 'e' ∨ c = 'E' then
      let tl2 := match tl with
        | d :: tt => if d = '+' ∨ d = '-' then tt else d :: tt
        | [] => []
      if tl2 = [] then false
      else tl2.all (fun d => decide ('0' ≤ d ∧ d ≤ '9'))
    else false

/-- Decimal mantissa with optional fraction and exponent. -/
def floatNumOk (s : List Char) : Bool :=
  let isDigit : Char → Bool := fun d => decide ('0' ≤ d ∧ d ≤ '9')
  let intPart := s.takeWhile isDigit
  let rest := s.dropWhile isDigit
  match rest with
  | '.' :: rest2 =>
    let frac := rest2.takeWhile isDigit
    let rest3 := rest2.dropWhile isDigit
    if intPart = [] ∧ frac = [] then false else floatExpOk rest3
  | _ => if intPart = [] then false else floatExpOk rest

/-- Modelled from Python's builtin `float(str)` (not repository code):
does the (already stripped) string parse as a float?  Optional sign, then
`inf`, `infinity`, `nan` (case-insensitive) or a decimal number with
optional fraction and exponent.  (Underscore digit separators are not
modelled; no claim exercises them.) -/
def pyFloatOk (s : List Char) : Bool :=
  let s1 := match s with
    | c :: tl => if c = '+' ∨ c = '-' then tl else c :: tl
    | [] => []
  let low := s1.map Char.toLower
  if low = strChars "inf" ∨ low = strChars "infinity" ∨ low = strChars "nan"
  then true
  else floatNumOk s1

/-- `Style` dataclass of `ass_parser.py`.  The `fontsize` field stores the
matched size text; the source parses it with `float(...)` (modelled by
`pyFloatOk`, see `parseStylesAux`) and never uses the numeric value. -/
structure Style where
  name : List Char
  fontname : List Char
  fontsize : List Char
deriving DecidableEq, Repr

/-- The style table `ASSParser.styles` (a Python dict). -/
abbrev Styles := List (List Char × Style)

/-- Dict assignment `styles[name] = v`: overwrite in place or append. -/
def stylesSet : Styles → List Char → Style → Styles
  | [], n, v => [(n, v)]
  | (k, w) :: tl, n, v =>
    if k = n then (k, v) :: tl else (k, w) :: stylesSet tl n v

/-- Dict lookup `styles.get(name)`. -/
def stylesGet : Styles → List Char → Option Style
  | [], _ => none
  | (k, w) :: tl, n => if k = n then some w else stylesGet tl n

/-- A Python `set` of characters: a duplicate-free list, extended only
with missing elements. -/
def charsInsert (s : List Char) (c : Char) : List Char :=
  if c ∈ s then s else s ++ [c]

/-- `set.update(text)`: insert the characters of `t` in order. -/
def charsAddAll (s : List Char) (t : List Char) : List Char :=
  t.foldl charsInsert s

/-- `ASSParser.font_usage`: dict from font name to its character set
(the `chars` field of the `FontUsage` dataclass). -/
abbrev Usage := List (List Char × List Char)

/-- Is `f` a key of the usage mapping (`fontname in self.font_usage`)? -/
def usageMem : Usage → List Char → Bool
  | [], _ => false
  | (k, _) :: tl, f => if k = f then true else usageMem tl f

/-- Lookup of a font's character set. -/
def usageLookup : Usage → List Char → Option (List Char)
  | [], _ => none
  | (k, s) :: tl, f => if k = f then some s else usageLookup tl f

/-- `self.font_usage[fontname] = FontUsage(fontname=fontname)` guarded by
`if fontname not in self.font_usage` — lazily create an empty entry. -/
def ensureFont (u : Usage) (f : List Char) : Usage :=
  if usageMem u f then u else u ++ [(f, [])]

/-- `FontUsage.add_text`: union the entry's set with the given characters. -/
def usageUpdate : Usage → List Char → List Char → Usage
  | [], _, _ => []
  | (k, s) :: tl, f, cs =>
    if k = f then (k, charsAddAll s cs) :: tl else (k, s) :: usageUpdate tl f cs

/-- The filtering and control-sequence normalisation of
`ASSParser._add_chars_to_font`: keep printable characters (plus the two
raw line terminators), then delete `\N` and `\n` and turn `\h` into a
space. -/
def normalizeRun (t : List Char) : List Char :=
  let filtered :=
    t.filter (fun c => pyIsPrintable c || decide (c = '\n' ∨ c = '\r'))
  replace2 '\\' 'h' [' ']
    (replace2 '\\' 'n' [] (replace2 '\\' 'N' [] filtered))

/-- `ASSParser._add_chars_to_font`. -/
def addCharsToFont (u : Usage) (f : List Char) (t : List Char) : Usage :=
  usageUpdate (ensureFont u f) f (normalizeRun t)

/-- The two guarded attribution sites of `_process_dialogue_text`
(`if current_font and before_text: ...` and the trailing-text twin):
a Python font string is truthy when non-`None` and non-empty. -/
def attribRun (u : Usage) (cur : Option (List Char)) (t : List Char) : Usage :=
  match cur with
  | some f => if f ≠ [] ∧ t ≠ [] then addCharsToFont u f t else u
  | none => u

/-- `TAG_PATTERN = \{[^}]*\}` via `finditer`: scan left to right; a `{`
opens a block, the next `}` closes it; the `(start, end)` index pairs of
all matches.  The state carries the index of the currently open brace. -/
def tagGo : List Char → Nat → Option Nat → List (Nat × Nat)
  | [], _, _ => []
  | c :: tl, i, none =>
    if c = '\x7b' then tagGo tl (i + 1) (some i) else tagGo tl (i + 1) none
  | c :: tl, i, some s =>
    if c = '\x7d' then (s, i + 1) :: tagGo tl (i + 1) none
    else tagGo tl (i + 1) (some s)

/-- All `(start, end)` spans of `TAG_PATTERN` matches in `text`. -/
def tagBlocks (text : List Char) : List (Nat × Nat) := tagGo text 0 none

/-- `DRAWING_START = \\p[1-9]`: does the block content contain a
drawing-mode-enter escape? -/
def containsDrawingStart : List Char → Bool
  | c1 :: c2 :: c3 :: rest =>
    if c1 = '\\' ∧ c2 = 'p' ∧ '1' ≤ c3 ∧ c3 ≤ '9' then true
    else containsDrawingStart (c2 :: c3 :: rest)
  | _ => false

/-- `DRAWING_END = \\p0` as a literal substring pattern. -/
def pZero : List Char := ['\\', 'p', '0']

/-- `FONT_OVERRIDE_PATTERN = \\fn([^\\}]+)` at the head of `s`: the
captured group, which must be non-empty. -/
def fnNameAt (s : List Char) : Option (List Char) :=
  match s with
  | '\\' :: 'f' :: 'n' :: rest =>
    let name := rest.takeWhile (fun c => decide (c ≠ '\\' ∧ c ≠ '\x7d'))
    if name = [] then none else some name
  | _ => none

/-- `FONT_OVERRIDE_PATTERN.search`: the group of the leftmost match. -/
def findFontOverride : List Char → Option (List Char)
  | [] => none
  | c :: rest =>
    match fnNameAt (c :: rest) with
    | some n => some n
    | none => findFontOverride rest

/-- The font-override part of the block handling in
`_process_dialogue_text`: an override with a non-empty stripped name
replaces the current font and is registered in the usage table. -/
def applyOverride (content : List Char) (cur : Option (List Char))
    (u : Usage) : Option (List Char) × Usage :=
  match findFontOverride content with
  | none => (cur, u)
  | some raw =>
    let nf := pyStrip raw
    if nf = [] then (cur, u) else (some nf, ensureFont u nf)

/-- The `for tag_match in TAG_PATTERN.finditer(text)` loop of
`ASSParser._process_dialogue_text`, threading `(font_usage, current_font,
pos)`.  A block containing a drawing-start escape looks for `\p0` in the
text after the block; if found, `pos` jumps to just past it and the
override handling is skipped (`continue`), otherwise the block falls
through to the override handling. -/
def processBlocksLoop (text : List Char) :
    List (Nat × Nat) → Usage → Option (List Char) → Nat →
      Usage × Option (List Char) × Nat
  | [], u, cur, pos => (u, cur, pos)
  | (s, e) :: rest, u, cur, pos =>
    let before := (text.drop pos).take (s - pos)
    let u1 := attribRun u cur before
    let content := (text.drop s).take (e - s)
    if containsDrawingStart content then
      match findSubFrom (text.drop e) pZero with
      | some idx => processBlocksLoop text rest u1 cur (e + idx + 3)
      | none =>
        let r := applyOverride content cur u1
        processBlocksLoop text rest r.2 r.1 e
    else
      let r := applyOverride content cur u1
      processBlocksLoop text rest r.2 r.1 e

/-- `ASSParser._process_dialogue_text`. -/
def processDialogueText (text : List Char) (baseFont : Option (List Char))
    (u : Usage) : Usage :=
  match processBlocksLoop text (tagBlocks text) u baseFont 0 with
  | (u1, cur, pos) => attribRun u1 cur (text.drop pos)

/-- `DIALOGUE_PATTERN` applied to one line:
`^Dialogue:\s*[^,]*,[^,]*,[^,]*,([^,]*),(?:[^,]*,){4}(.*)$`.
Eight commas are consumed before the capture of the rest of the line
(`\s*` only eats whitespace that `[^,]*` would equally consume and no
group observes it). -/
def parseDialogueLine (line : List Char) : Option (List Char × List Char) :=
  if listStartsWith (strChars "Dialogue:") line then
    match splitOnComma (line.drop 9) with
    | _ :: _ :: _ :: f4 :: _ :: _ :: _ :: _ :: rest =>
      if rest = [] then none else some (f4, joinComma rest)
    | _ => none
  else none

/-- `STYLE_PATTERN` applied to one line:
`^Style:\s*([^,]+),([^,]+),([^,]+)`.  The three captures are the first
three comma-fields after `Style:`; each must be non-empty for the regex to
match, and `\s*` only removes whitespace that the subsequent
`.strip()` removes anyway (the source strips all three groups). -/
def parseStyleLine (line : List Char) :
    Option (List Char × List Char × List Char) :=
  if listStartsWith (strChars "Style:") line then
    match splitOnComma (line.drop 6) with
    | f1 :: f2 :: f3 :: _ =>
      if f1 ≠ [] ∧ f2 ≠ [] ∧ f3 ≠ [] then
        some (pyStrip f1, pyStrip f2, pyStrip f3)
      else none
    | _ => none
  else none

/-- `ASSParser._parse_styles`: fold over the lines; a recognised record
whose size field fails `float(...)` raises `ValueError` (modelled as
`none`), aborting the pass.  Each successful record is stored in the style
table and its font registered in the usage table. -/
def parseStylesAux (ls : List (List Char)) (st : Styles) (u : Usage) :
    Option (Styles × Usage) :=
  match ls with
  | [] => some (st, u)
  | l :: rest =>
    match parseStyleLine l with
    | none => parseStylesAux rest st u
    | some (n, f, sz) =>
      if pyFloatOk sz then
        parseStylesAux rest (stylesSet st n ⟨n, f, sz⟩) (ensureFont u f)
      else none

/-- `ASSParser._parse_dialogues`: for each dialogue record, look the
stripped style name up in the table (a miss gives no base font) and scan
the text. -/
def parseDialogues (ls : List (List Char)) (st : Styles) (u : Usage) :
    Usage :=
  match ls with
  | [] => u
  | l :: rest =>
    match parseDialogueLine l with
    | none => parseDialogues rest st u
    | some (sr, tx) =>
      let base := (stylesGet st (pyStrip sr)).map Style.fontname
      parseDialogues rest st (processDialogueText tx base u)

/-- `ASSParser.parse` on file content given as lines: styles first (which
may raise), then dialogues. -/
def assParse (ls : List (List Char)) : Option Usage :=
  match parseStylesAux ls [] [] with
  | none => none
  | some (st, u) => some (parseDialogues ls st u)

/-! ### `ass_writer.py`: the binary transcoder and section embedding -/

/-- A 6-bit value offset by 33, emitted as one character
(`chr(c + 33)` in `ass_uuencode`). -/
def chr33 (n : Nat) : Char := Char.ofNat (n + 33)

/-- One 3-byte group of `ass_uuencode`: split into four 6-bit values. -/
def encGroup (b1 b2 b3 : Nat) : List Char :=
  [chr33 (b1 >>> 2),
   chr33 (((b1 &&& 0x03) <<< 4) ||| (b2 >>> 4)),
   chr33 (((b2 &&& 0x0F) <<< 2) ||| (b3 >>> 6)),
   chr33 (b3 &&& 0x3F)]

/-- The grouping loop of `ass_uuencode`: 3 bytes per group, the final
short group zero-padded. -/
def uuEncodeGroups : List Nat → List Char
  | [] => []
  | [b1] => encGroup b1 0 0
  | [b1, b2] => encGroup b1 b2 0
  | b1 :: b2 :: b3 :: rest => encGroup b1 b2 b3 ++ uuEncodeGroups rest

/-- The 80-column hard wrap of `ass_uuencode`
(`'\n'.join(encoded[i:i+80] ...)`): emit a newline before each character
that would start column 81, counting down the remaining room. -/
def wrapNL : List Char → Nat → List Char
  | [], _ => []
  | c :: tl, k =>
    if k = 0 then '\n' :: c :: wrapNL tl 79 else c :: wrapNL tl (k - 1)

/-- `ass_uuencode` on a byte sequence (bytes as `Nat < 256`). -/
def assUuencode (data : List Nat) : List Char :=
  wrapNL (uuEncodeGroups data) 80

/-- The size estimate of `get_embedded_fonts_info`:
`len(re.sub(r'\s', '', data_section)) * 3 // 4` — non-whitespace
character count times 3, floor-divided by 4.  (`\s` on this ASCII data is
the same whitespace class as `pyIsSpaceChar`.) -/
def sizeEstimate (s : List Char) : Nat :=
  ((s.filter (fun c => !pyIsSpaceChar c)).length * 3) / 4

/-- Case-insensitive `listStartsWith` (the `re.IGNORECASE` matches of
`ass_writer.py`). -/
def listStartsWithCI : List Char → List Char → Bool
  | [], _ => true
  | _ :: _, [] => false
  | p :: ps, c :: cs =>
    if p.toLower = c.toLower then listStartsWithCI ps cs else false

/-- Offset of the first position whose suffix starts with `"\n["`, or the
end of the list — the lookahead `(?=\n\[|\Z)` that the lazy `.*?` of the
`[Fonts]`-removal pattern stops at. -/
def fontsEndOffset : List Char → Nat
  | '\n' :: '[' :: _ => 0
  | _ :: tl => 1 + fontsEndOffset tl
  | [] => 0

/-- `re.sub(r'\n?\[Fonts\].*?(?=\n\[|\Z)', '', content, DOTALL|IGNORECASE)`
of `embed_fonts_in_ass`: delete every `[Fonts]` section (with one optional
preceding newline) up to the next bracketed header or end of input.  The
fuel argument only drives the recursion; `removeFonts` supplies enough
for the scan to finish. -/
def removeFontsF : Nat → List Char → List Char
  | 0, s => s
  | _ + 1, [] => []
  | fuel + 1, c :: tl =>
    if c = '\n' ∧ listStartsWithCI (strChars "[fonts]") tl then
      let rest := tl.drop 7
      removeFontsF fuel (rest.drop (fontsEndOffset rest))
    else if listStartsWithCI (strChars "[fonts]") (c :: tl) then
      let rest := (c :: tl).drop 7
      removeFontsF fuel (rest.drop (fontsEndOffset rest))
    else c :: removeFontsF fuel tl

/-- The `[Fonts]`-section removal of `embed_fonts_in_ass`. -/
def removeFonts (s : List Char) : List Char := removeFontsF (s.length + 1) s

/-- `if not content.endswith('\n'): content += '\n'`. -/
def ensureTrailingNL (s : List Char) : List Char :=
  if s.getLast? = some '\n' then s else s ++ ['\n']

/-- The content assembled by `embed_fonts_in_ass`: old content with any
`[Fonts]` section removed and a trailing newline ensured, then the new
fonts section appended. -/
def embedContent (content sect : List Char) : List Char :=
  ensureTrailingNL (removeFonts content) ++ sect

/-! ### General lemmas -/

theorem length_filter_of_all {p : Char → Bool} :
    ∀ {s : List Char}, (∀ c ∈ s, p c = true) → (s.filter p).length = s.length := by
  intro s
  induction s with
  | nil => intro _; rfl
  | cons c tl ih =>
    intro h
    have hc := h c (by simp)
    simp [List.filter_cons, hc, ih fun x hx => h x (by simp [hx])]

theorem ofNat_toNat_cases (v : Nat) :
    (Char.ofNat v).toNat = if v.isValidChar then v else 0 := by
  simp only [Char.ofNat]
  split <;> rfl

theorem pyIsSpaceChar_false_of_toNat {c : Char}
    (h : c.toNat ≠ 32 ∧ c.toNat ≠ 9 ∧ c.toNat ≠ 10 ∧ c.toNat ≠ 13 ∧
      c.toNat ≠ 11 ∧ c.toNat ≠ 12) : pyIsSpaceChar c = false := by
  have hne : ∀ d : Char, c.toNat ≠ d.toNat → c ≠ d := by
    intro d hd he; exact hd (by rw [he])
  simp only [pyIsSpaceChar, decide_eq_false_iff_not]
  rintro (h1 | h1 | h1 | h1 | h1 | h1) <;> subst h1 <;> revert h <;> decide

theorem chr33_not_space (v : Nat) : pyIsSpaceChar (chr33 v) = false := by
  apply pyIsSpaceChar_false_of_toNat
  have hval := ofNat_toNat_cases (v + 33)
  unfold chr33
  rw [hval]
  split <;> omega

theorem encGroup_mem (b1 b2 b3 : Nat) (c : Char) (hc : c ∈ encGroup b1 b2 b3) :
    ∃ v, c = chr33 v := by
  simp only [encGroup, List.mem_cons, List.not_mem_nil, or_false] at hc
  rcases hc with h | h | h | h <;> exact ⟨_, h⟩

theorem uuEncodeGroups_mem (data : List Nat) (c : Char)
    (hc : c ∈ uuEncodeGroups data) : ∃ v, c = chr33 v := by
  induction data using uuEncodeGroups.induct with
  | case1 => simp [uuEncodeGroups] at hc
  | case2 b1 => exact encGroup_mem _ _ _ _ (by simpa [uuEncodeGroups] using hc)
  | case3 b1 b2 => exact encGroup_mem _ _ _ _ (by simpa [uuEncodeGroups] using hc)
  | case4 b1 b2 b3 rest ih =>
    simp only [uuEncodeGroups, List.mem_append] at hc
    rcases hc with h | h
    · exact encGroup_mem _ _ _ _ h
    · exact ih h

theorem uuEncodeGroups_length (data : List Nat) :
    (uuEncodeGroups data).length = 4 * ((data.length + 2) / 3) := by
  induction data using uuEncodeGroups.induct with
  | case1 => rfl
  | case2 b1 =>
    simp only [uuEncodeGroups, encGroup, List.length_cons, List.length_nil,
      List.length_singleton]
  | case3 b1 b2 =>
    simp only [uuEncodeGroups, encGroup, List.length_cons, List.length_nil]
  | case4 b1 b2 b3 rest ih =>
    simp only [uuEncodeGroups, List.length_append, List.length_cons, ih,
      encGroup, List.length_nil]
    omega

theorem wrapNL_filter_length {p : Char → Bool} (hp : p '\n' = false) :
    ∀ (s : List Char) (k : Nat),
      ((wrapNL s k).filter p).length = (s.filter p).length := by
  intro s
  induction s with
  | nil => intro k; rfl
  | cons c tl ih =>
    intro k
    by_cases hk : k = 0 <;> by_cases hpc : p c = true <;>
      simp [wrapNL, hk, hpc, hp, ih]

/-! ### Style-table lemmas -/

theorem stylesGet_set_self (st : Styles) (n : List Char) (v : Style) :
    stylesGet (stylesSet st n v) n = some v := by
  induction st with
  | nil => simp [stylesSet, stylesGet]
  | cons hd tl ih =>
    obtain ⟨k, w⟩ := hd
    by_cases h : k = n <;> simp [stylesSet, stylesGet, h, ih]

theorem stylesGet_set_ne (st : Styles) (n : List Char) (v : Style)
    (m : List Char) (h : m ≠ n) :
    stylesGet (stylesSet st n v) m = stylesGet st m := by
  induction st with
  | nil =>
    simp only [stylesSet, stylesGet]
    rw [if_neg fun he => h he.symm]
  | cons hd tl ih =>
    obtain ⟨k, w⟩ := hd
    by_cases hk : k = n
    · have hkm : ¬k = m := fun he => h (he ▸ hk)
      simp only [stylesSet, if_pos hk, stylesGet, if_neg hkm]
    · by_cases hm : k = m
      · simp only [stylesSet, if_neg hk, stylesGet, if_pos hm]
      · simp only [stylesSet, if_neg hk, stylesGet, if_neg hm, ih]

theorem parseStylesAux_total :
    ∀ (ls : List (List Char)) (st : Styles) (u : Usage),
      (∀ l ∈ ls, ∀ n f sz, parseStyleLine l = some (n, f, sz) →
        pyFloatOk sz = true) →
      ∃ r : Styles × Usage, parseStylesAux ls st u = some r ∧
        (∀ m, (stylesGet st m).isSome → (stylesGet r.1 m).isSome) ∧
        (∀ l ∈ ls, ∀ n f sz, parseStyleLine l = some (n, f, sz) →
          (stylesGet r.1 n).isSome) := by
  intro ls
  induction ls with
  | nil =>
    intro st u _
    exact ⟨(st, u), rfl, fun m hm => hm, by simp⟩
  | cons l rest ih =>
    intro st u h
    rcases hl : parseStyleLine l with _ | ⟨n, f, sz⟩
    · obtain ⟨r, hr, hpres, hall⟩ :=
        ih st u (fun x hx => h x (by simp [hx]))
      refine ⟨r, by simp [parseStylesAux, hl, hr], hpres, ?_⟩
      intro x hx n' f' sz' hx2
      rcases List.mem_cons.mp hx with he | he
      · subst he; rw [hl] at hx2; exact absurd hx2 (by simp)
      · exact hall x he n' f' sz' hx2
    · have hok : pyFloatOk sz = true := h l (by simp) n f sz hl
      obtain ⟨r, hr, hpres, hall⟩ :=
        ih (stylesSet st n ⟨n, f, sz⟩) (ensureFont u f)
          (fun x hx => h x (by simp [hx]))
      refine ⟨r, by simp [parseStylesAux, hl, hok, hr], ?_, ?_⟩
      · intro m hm
        apply hpres
        by_cases hmn : m = n
        · subst hmn; simp [stylesGet_set_self]
        · rwa [stylesGet_set_ne st n _ m hmn]
      · intro x hx n' f' sz' hx2
        rcases List.mem_cons.mp hx with he | he
        · subst he
          rw [hl] at hx2
          simp only [Option.some_inj, Prod.mk.injEq] at hx2
          obtain ⟨rfl, -, -⟩ := hx2
          apply hpres
          simp [stylesGet_set_self]
        · exact hall x he n' f' sz' hx2

/-! ### Usage-table lemmas -/

theorem usageMem_append (u v : Usage) (k : List Char) :
    usageMem (u ++ v) k = (usageMem u k || usageMem v k) := by
  induction u with
  | nil => simp [usageMem]
  | cons hd tl ih =>
    obtain ⟨k1, s1⟩ := hd
    by_cases h : k1 = k <;> simp [usageMem, h, ih]

theorem usageMem_ensureFont {u : Usage} {f k : List Char}
    (h : usageMem (ensureFont u f) k = true) :
    usageMem u k = true ∨ k = f := by
  unfold ensureFont at h
  split at h
  · exact Or.inl h
  · rw [usageMem_append] at h
    rcases Bool.or_eq_true_iff.mp h with h1 | h1
    · exact Or.inl h1
    · right
      simp only [usageMem] at h1
      split at h1
      · next hfk => exact hfk.symm
      · simp [usageMem] at h1

theorem usageMem_update (u : Usage) (f : List Char) (cs : List Char)
    (k : List Char) : usageMem (usageUpdate u f cs) k = usageMem u k := by
  induction u with
  | nil => rfl
  | cons hd tl ih =>
    obtain ⟨k1, s1⟩ := hd
    by_cases h1 : k1 = f <;> simp [usageUpdate, usageMem, h1, ih]

theorem usageMem_addChars {u : Usage} {f t k : List Char}
    (h : usageMem (addCharsToFont u f t) k = true) :
    usageMem u k = true ∨ k = f := by
  unfold addCharsToFont at h
  rw [usageMem_update] at h
  exact usageMem_ensureFont h

theorem usageMem_attribRun {u : Usage} {cur : Option (List Char)}
    {t k : List Char} (h : usageMem (attribRun u cur t) k = true) :
    usageMem u k = true ∨ ∃ f, cur = some f ∧ k = f := by
  unfold attribRun at h
  split at h
  · split at h
    · rcases usageMem_addChars h with h1 | h1
      · exact Or.inl h1
      · exact Or.inr ⟨_, rfl, h1⟩
    · exact Or.inl h
  · exact Or.inl h

theorem applyOverride_cases (content : List Char) (cur : Option (List Char))
    (u : Usage) :
    ((applyOverride content cur u).1 = cur ∧
      (applyOverride content cur u).2 = u) ∨
    ∃ raw, findFontOverride content = some raw ∧ pyStrip raw ≠ [] ∧
      (applyOverride content cur u).1 = some (pyStrip raw) ∧
      (applyOverride content cur u).2 = ensureFont u (pyStrip raw) := by
  unfold applyOverride
  rcases h : findFontOverride content with _ | raw
  · exact Or.inl ⟨rfl, rfl⟩
  · by_cases he : pyStrip raw = []
    · simp [he]
    · right
      exact ⟨raw, rfl, he, by simp [he], by simp [he]⟩

/-- Soundness of the usage keys produced by the block loop: every key of
the final mapping was already a key, or satisfies the invariant `P`, which
covers the current font and every override name found in any block of the
list.  The final current font also satisfies `P`. -/
theorem processBlocksLoop_keys (text : List Char) (P : List Char → Prop) :
    ∀ (blocks : List (Nat × Nat)) (u : Usage) (cur : Option (List Char))
      (pos : Nat),
      (∀ f, cur = some f → P f) →
      (∀ se ∈ blocks, ∀ raw,
        findFontOverride ((text.drop se.1).take (se.2 - se.1)) = some raw →
        pyStrip raw ≠ [] → P (pyStrip raw)) →
      (∀ k, usageMem (processBlocksLoop text blocks u cur pos).1 k = true →
        usageMem u k = true ∨ P k) ∧
      (∀ f, (processBlocksLoop text blocks u cur pos).2.1 = some f → P f) := by
  intro blocks
  induction blocks with
  | nil =>
    intro u cur pos hc _
    exact ⟨fun k hk => Or.inl hk, hc⟩
  | cons se rest ih =>
    intro u cur pos hc hb
    obtain ⟨s, e⟩ := se
    have hu1mem : ∀ k,
        usageMem (attribRun u cur ((text.drop pos).take (s - pos))) k = true →
        usageMem u k = true ∨ P k := by
      intro k hk
      rcases usageMem_attribRun hk with h1 | ⟨f, hf, rfl⟩
      · exact Or.inl h1
      · exact Or.inr (hc _ hf)
    have hbrest : ∀ se ∈ rest, ∀ raw,
        findFontOverride ((text.drop se.1).take (se.2 - se.1)) = some raw →
        pyStrip raw ≠ [] → P (pyStrip raw) :=
      fun se hse => hb se (List.mem_cons_of_mem _ hse)
    have hfall :
        (∀ k, usageMem (processBlocksLoop text rest
            (applyOverride ((text.drop s).take (e - s)) cur
              (attribRun u cur ((text.drop pos).take (s - pos)))).2
            (applyOverride ((text.drop s).take (e - s)) cur
              (attribRun u cur ((text.drop pos).take (s - pos)))).1 e).1 k =
              true →
          usageMem u k = true ∨ P k) ∧
        (∀ f, (processBlocksLoop text rest
            (applyOverride ((text.drop s).take (e - s)) cur
              (attribRun u cur ((text.drop pos).take (s - pos)))).2
            (applyOverride ((text.drop s).take (e - s)) cur
              (attribRun u cur ((text.drop pos).take (s - pos)))).1
            e).2.1 = some f → P f) := by
      have hover := applyOverride_cases ((text.drop s).take (e - s)) cur
        (attribRun u cur ((text.drop pos).take (s - pos)))
      have hc2 : ∀ f,
          (applyOverride ((text.drop s).take (e - s)) cur
            (attribRun u cur ((text.drop pos).take (s - pos)))).1 = some f →
          P f := by
        rcases hover with ⟨h1, _⟩ | ⟨raw, hraw, hne, h1, _⟩
        · rw [h1]; exact hc
        · rw [h1]
          intro f hf
          exact (Option.some_inj.mp hf) ▸ hb (s, e) (by simp) raw hraw hne
      have hm2 : ∀ k,
          usageMem (applyOverride ((text.drop s).take (e - s)) cur
            (attribRun u cur ((text.drop pos).take (s - pos)))).2 k = true →
          usageMem u k = true ∨ P k := by
        intro k hk
        rcases hover with ⟨_, h2⟩ | ⟨raw, hraw, hne, _, h2⟩
        · rw [h2] at hk; exact hu1mem k hk
        · rw [h2] at hk
          rcases usageMem_ensureFont hk with h3 | h3
          · exact hu1mem k h3
          · exact Or.inr (h3 ▸ hb (s, e) (by simp) raw hraw hne)
      obtain ⟨ka, kb⟩ := ih _ _ e hc2 hbrest
      refine ⟨fun k hk => ?_, kb⟩
      rcases ka k hk with h3 | h3
      · exact hm2 k h3
      · exact Or.inr h3
    simp only [processBlocksLoop]
    by_cases hds :
        containsDrawingStart ((text.drop s).take (e - s)) = true
    · simp only [hds, if_true]
      rcases hfind : findSubFrom (text.drop e) pZero with _ | idx
      · simp only [hfind]
        exact hfall
      · simp only [hfind]
        obtain ⟨ka, kb⟩ := ih
          (attribRun u cur ((text.drop pos).take (s - pos))) cur
          (e + idx + 3) hc hbrest
        refine ⟨fun k hk => ?_, kb⟩
        rcases ka k hk with h3 | h3
        · exact hu1mem k h3
        · exact Or.inr h3
    · simp only [Bool.not_eq_true] at hds
      simp only [hds, Bool.false_eq_true, if_false]
      exact hfall

/-- A font name `k` is named by a `\fn` override (with non-empty stripped
name) inside some directive block of the dialogue text `tx`. -/
def overrideInText (tx : List Char) (k : List Char) : Prop :=
  ∃ se ∈ tagBlocks tx, ∃ raw,
    findFontOverride ((tx.drop se.1).take (se.2 - se.1)) = some raw ∧
    pyStrip raw ≠ [] ∧ k = pyStrip raw

theorem processDialogueText_keys (tx : List Char) (base : Option (List Char))
    (u : Usage) (k : List Char)
    (h : usageMem (processDialogueText tx base u) k = true) :
    usageMem u k = true ∨ (∃ f, base = some f ∧ k = f) ∨
      overrideInText tx k := by
  unfold processDialogueText at h
  obtain ⟨ka, kb⟩ := processBlocksLoop_keys tx
    (fun f => (∃ g, base = some g ∧ f = g) ∨ overrideInText tx f)
    (tagBlocks tx) u base 0 (fun f hf => Or.inl ⟨f, hf, rfl⟩)
    (fun se hse raw hraw hne => Or.inr ⟨se, hse, raw, hraw, hne, rfl⟩)
  rcases hloop : processBlocksLoop tx (tagBlocks tx) u base 0 with ⟨u1, cur, pos⟩
  rw [hloop] at h ka kb
  simp only at h ka kb
  rcases usageMem_attribRun h with h1 | ⟨f, hf, rfl⟩
  · rcases ka k h1 with h2 | h2
    · exact Or.inl h2
    · rcases h2 with ⟨g, hg, rfl⟩ | h3
      · exact Or.inr (Or.inl ⟨_, hg, rfl⟩)
      · exact Or.inr (Or.inr h3)
  · rcases kb _ hf with ⟨g, hg, rfl⟩ | h3
    · exact Or.inr (Or.inl ⟨_, hg, rfl⟩)
    · exact Or.inr (Or.inr h3)

theorem parseStylesAux_keys :
    ∀ (ls : List (List Char)) (st : Styles) (u : Usage) (st2 : Styles)
      (u2 : Usage), parseStylesAux ls st u = some (st2, u2) →
      (∀ m r, stylesGet st2 m = some r →
        (∃ r0, stylesGet st m = some r0 ∧ r0.fontname = r.fontname) ∨
        ∃ l ∈ ls, ∃ n sz, parseStyleLine l = some (n, r.fontname, sz)) ∧
      (∀ k, usageMem u2 k = true → usageMem u k = true ∨
        ∃ l ∈ ls, ∃ n sz, parseStyleLine l = some (n, k, sz)) := by
  intro ls
  induction ls with
  | nil =>
    intro st u st2 u2 hp
    simp only [parseStylesAux, Option.some_inj, Prod.mk.injEq] at hp
    obtain ⟨rfl, rfl⟩ := hp
    exact ⟨fun m r hm => Or.inl ⟨r, hm, rfl⟩, fun k hk => Or.inl hk⟩
  | cons l rest ih =>
    intro st u st2 u2 hp
    rcases hl : parseStyleLine l with _ | ⟨n, f, sz⟩
    · rw [parseStylesAux, hl] at hp
      obtain ⟨ha, hb⟩ := ih st u st2 u2 hp
      refine ⟨fun m r hm => ?_, fun k hk => ?_⟩
      · rcases ha m r hm with h1 | ⟨x, hx, n1, sz1, hx2⟩
        · exact Or.inl h1
        · exact Or.inr ⟨x, List.mem_cons_of_mem _ hx, n1, sz1, hx2⟩
      · rcases hb k hk with h1 | ⟨x, hx, n1, sz1, hx2⟩
        · exact Or.inl h1
        · exact Or.inr ⟨x, List.mem_cons_of_mem _ hx, n1, sz1, hx2⟩
    · simp only [parseStylesAux, hl] at hp
      by_cases hok : pyFloatOk sz = true
      · rw [if_pos hok] at hp
        obtain ⟨ha, hb⟩ := ih _ _ st2 u2 hp
        refine ⟨fun m r hm => ?_, fun k hk => ?_⟩
        · rcases ha m r hm with ⟨r0, hr0, he⟩ | ⟨x, hx, n1, sz1, hx2⟩
          · by_cases hmn : m = n
            · subst hmn
              rw [stylesGet_set_self] at hr0
              obtain rfl := Option.some_inj.mp hr0
              have he2 : f = r.fontname := he
              exact Or.inr ⟨l, List.mem_cons_self _ _, _, sz, he2 ▸ hl⟩
            · rw [stylesGet_set_ne st n _ m hmn] at hr0
              exact Or.inl ⟨r0, hr0, he⟩
          · exact Or.inr ⟨x, List.mem_cons_of_mem _ hx, n1, sz1, hx2⟩
        · rcases hb k hk with h1 | ⟨x, hx, n1, sz1, hx2⟩
          · rcases usageMem_ensureFont h1 with h2 | rfl
            · exact Or.inl h2
            · exact Or.inr ⟨l, List.mem_cons_self _ _, n, sz, hl⟩
          · exact Or.inr ⟨x, List.mem_cons_of_mem _ hx, n1, sz1, hx2⟩
      · rw [if_neg hok] at hp
        exact absurd hp (by simp)

theorem parseDialogues_keys :
    ∀ (ls : List (List Char)) (st : Styles) (u : Usage) (k : List Char),
      usageMem (parseDialogues ls st u) k = true →
      usageMem u k = true ∨
      ∃ l ∈ ls, ∃ sr tx, parseDialogueLine l = some (sr, tx) ∧
        ((∃ r, stylesGet st (pyStrip sr) = some r ∧ k = r.fontname) ∨
          overrideInText tx k) := by
  intro ls
  induction ls with
  | nil =>
    intro st u k hk
    exact Or.inl hk
  | cons l rest ih =>
    intro st u k hk
    rcases hl : parseDialogueLine l with _ | ⟨sr, tx⟩
    · rw [parseDialogues, hl] at hk
      rcases ih st u k hk with h1 | ⟨x, hx, r1, r2, hx2, hx3⟩
      · exact Or.inl h1
      · exact Or.inr ⟨x, List.mem_cons_of_mem _ hx, r1, r2, hx2, hx3⟩
    · simp only [parseDialogues, hl] at hk
      rcases ih st _ k hk with h1 | ⟨x, hx, r1, r2, hx2, hx3⟩
      · rcases processDialogueText_keys tx
          ((stylesGet st (pyStrip sr)).map Style.fontname) u k h1 with
          h2 | ⟨f, hf, rfl⟩ | h2
        · exact Or.inl h2
        · rcases ho : stylesGet st (pyStrip sr) with _ | r
          · rw [ho] at hf; simp at hf
          · rw [ho] at hf
            simp only [Option.map_some', Option.some_inj] at hf
            exact Or.inr ⟨l, List.mem_cons_self _ _, sr, tx, hl,
              Or.inl ⟨r, ho, hf.symm⟩⟩
        · exact Or.inr ⟨l, List.mem_cons_self _ _, sr, tx, hl, Or.inr h2⟩
      · exact Or.inr ⟨x, List.mem_cons_of_mem _ hx, r1, r2, hx2, hx3⟩

/-! ### Printability lemmas (for the usage-set invariant) -/

theorem charsInsert_mem {s : List Char} {x c : Char}
    (h : c ∈ charsInsert s x) : c ∈ s ∨ c = x := by
  unfold charsInsert at h
  split at h
  · exact Or.inl h
  · rcases List.mem_append.mp h with h1 | h1
    · exact Or.inl h1
    · exact Or.inr (List.mem_singleton.mp h1)

theorem charsAddAll_mem :
    ∀ (t s : List Char) (c : Char), c ∈ charsAddAll s t → c ∈ s ∨ c ∈ t := by
  intro t
  induction t with
  | nil => intro s c h; exact Or.inl h
  | cons x tl ih =>
    intro s c h
    rcases ih (charsInsert s x) c h with h1 | h1
    · rcases charsInsert_mem h1 with h2 | h2
      · exact Or.inl h2
      · exact Or.inr (h2 ▸ List.mem_cons_self x tl)
    · exact Or.inr (List.mem_cons_of_mem x h1)

theorem replace2_mem (x y : Char) (new : List Char) :
    ∀ (s : List Char) (c : Char), c ∈ replace2 x y new s → c ∈ s ∨ c ∈ new := by
  intro s
  induction s using replace2.induct x y new with
  | case1 a b tl hab ih =>
    intro c h
    rw [replace2, if_pos hab] at h
    rcases List.mem_append.mp h with h1 | h1
    · exact Or.inr h1
    · rcases ih c h1 with h2 | h2
      · exact Or.inl (List.mem_cons_of_mem _ (List.mem_cons_of_mem _ h2))
      · exact Or.inr h2
  | case2 a b tl hab ih =>
    intro c h
    rw [replace2, if_neg hab] at h
    rcases List.mem_cons.mp h with h1 | h1
    · exact Or.inl (h1 ▸ List.mem_cons_self _ _)
    · rcases ih c h1 with h2 | h2
      · exact Or.inl (List.mem_cons_of_mem _ h2)
      · exact Or.inr h2
  | case3 s hs =>
    intro c h
    rcases s with _ | ⟨a, s1⟩
    · exact Or.inl h
    · rcases s1 with _ | ⟨b, tl⟩
      · exact Or.inl h
      · exact absurd rfl (hs a b tl)

theorem normalizeRun_printable {t : List Char}
    (ht : ∀ c ∈ t, c ≠ '\n' ∧ c ≠ '\r') :
    ∀ c ∈ normalizeRun t, pyIsPrintable c = true := by
  intro c hc
  unfold normalizeRun at hc
  rcases replace2_mem _ _ _ _ _ hc with h1 | h1
  · rcases replace2_mem _ _ _ _ _ h1 with h2 | h2
    · rcases replace2_mem _ _ _ _ _ h2 with h3 | h3
      · obtain ⟨hmem, hkeep⟩ := List.mem_filter.mp h3
        rcases Bool.or_eq_true_iff.mp hkeep with h4 | h4
        · exact h4
        · rcases of_decide_eq_true h4 with h5 | h5
          · exact absurd h5 (ht c hmem).1
          · exact absurd h5 (ht c hmem).2
      · exact absurd h3 (List.not_mem_nil c)
    · exact absurd h2 (List.not_mem_nil c)
  · obtain rfl := List.mem_singleton.mp h1
    decide

/-- All character sets of a usage mapping contain only printable
characters. -/
def usageCharsOk (u : Usage) : Prop :=
  ∀ p ∈ u, ∀ c ∈ p.2, pyIsPrintable c = true

theorem usageLookup_mem {u : Usage} {f S : List Char}
    (h : usageLookup u f = some S) : (f, S) ∈ u := by
  induction u with
  | nil => exact absurd h (by simp [usageLookup])
  | cons hd tl ih =>
    obtain ⟨k, s⟩ := hd
    simp only [usageLookup] at h
    split at h
    · next hk =>
      obtain rfl := Option.some_inj.mp h
      exact hk ▸ List.mem_cons_self _ _
    · exact List.mem_cons_of_mem _ (ih h)

theorem ensureFont_charsOk {u : Usage} (f : List Char)
    (hu : usageCharsOk u) : usageCharsOk (ensureFont u f) := by
  unfold ensureFont
  split
  · exact hu
  · intro p hp
    rcases List.mem_append.mp hp with h1 | h1
    · exact hu p h1
    · obtain rfl := List.mem_singleton.mp h1
      intro c hc
      exact absurd hc (List.not_mem_nil c)

theorem usageUpdate_charsOk {u : Usage} {f cs : List Char}
    (hu : usageCharsOk u) (hcs : ∀ c ∈ cs, pyIsPrintable c = true) :
    usageCharsOk (usageUpdate u f cs) := by
  induction u with
  | nil => intro p hp; exact absurd hp (List.not_mem_nil p)
  | cons hd tl ih =>
    obtain ⟨k, s⟩ := hd
    have hhd : ∀ c ∈ s, pyIsPrintable c = true := hu (k, s) (by simp)
    have htl : usageCharsOk tl := fun p hp => hu p (List.mem_cons_of_mem _ hp)
    simp only [usageUpdate]
    split
    · intro p hp
      rcases List.mem_cons.mp hp with h1 | h1
      · subst h1
        intro c hc
        rcases charsAddAll_mem cs s c hc with h2 | h2
        · exact hhd c h2
        · exact hcs c h2
      · exact htl p h1
    · intro p hp
      rcases List.mem_cons.mp hp with h1 | h1
      · subst h1; exact hhd
      · exact ih htl p h1

theorem addCharsToFont_charsOk {u : Usage} {f t : List Char}
    (hu : usageCharsOk u) (ht : ∀ c ∈ t, c ≠ '\n' ∧ c ≠ '\r') :
    usageCharsOk (addCharsToFont u f t) := by
  unfold addCharsToFont
  exact usageUpdate_charsOk (ensureFont_charsOk f hu) (normalizeRun_printable ht)

theorem attribRun_charsOk {u : Usage} {cur : Option (List Char)}
    {t : List Char} (hu : usageCharsOk u)
    (ht : ∀ c ∈ t, c ≠ '\n' ∧ c ≠ '\r') :
    usageCharsOk (attribRun u cur t) := by
  unfold attribRun
  split
  · split
    · exact addCharsToFont_charsOk hu ht
    · exact hu
  · exact hu

theorem applyOverride_charsOk (content : List Char)
    (cur : Option (List Char)) {u : Usage} (hu : usageCharsOk u) :
    usageCharsOk (applyOverride content cur u).2 := by
  rcases applyOverride_cases content cur u with ⟨_, h2⟩ | ⟨raw, _, _, _, h2⟩
  · rw [h2]; exact hu
  · rw [h2]; exact ensureFont_charsOk _ hu

theorem sliceSafe {text : List Char}
    (htext : ∀ c ∈ text, c ≠ '\n' ∧ c ≠ '\r') (i j : Nat) :
    ∀ c ∈ (text.drop i).take j, c ≠ '\n' ∧ c ≠ '\r' :=
  fun c hc => htext c (List.drop_subset i text (List.take_subset j _ hc))

theorem processBlocksLoop_charsOk {text : List Char}
    (htext : ∀ c ∈ text, c ≠ '\n' ∧ c ≠ '\r') :
    ∀ (blocks : List (Nat × Nat)) (u : Usage) (cur : Option (List Char))
      (pos : Nat), usageCharsOk u →
      usageCharsOk (processBlocksLoop text blocks u cur pos).1 := by
  intro blocks
  induction blocks with
  | nil => intro u cur pos hu; exact hu
  | cons se rest ih =>
    intro u cur pos hu
    obtain ⟨s, e⟩ := se
    have hu1 : usageCharsOk
        (attribRun u cur ((text.drop pos).take (s - pos))) :=
      attribRun_charsOk hu (sliceSafe htext pos (s - pos))
    simp only [processBlocksLoop]
    by_cases hds :
        containsDrawingStart ((text.drop s).take (e - s)) = true
    · simp only [hds, if_true]
      rcases hfind : findSubFrom (text.drop e) pZero with _ | idx
      · simp only [hfind]
        exact ih _ _ _ (applyOverride_charsOk _ _ hu1)
      · simp only [hfind]
        exact ih _ _ _ hu1
    · simp only [Bool.not_eq_true] at hds
      simp only [hds, Bool.false_eq_true, if_false]
      exact ih _ _ _ (applyOverride_charsOk _ _ hu1)

theorem processDialogueText_charsOk {text : List Char}
    (htext : ∀ c ∈ text, c ≠ '\n' ∧ c ≠ '\r') (base : Option (List Char))
    {u : Usage} (hu : usageCharsOk u) :
    usageCharsOk (processDialogueText text base u) := by
  unfold processDialogueText
  rcases hloop : processBlocksLoop text (tagBlocks text) u base 0 with
    ⟨u1, cur, pos⟩
  have h1 := processBlocksLoop_charsOk htext (tagBlocks text) u base 0 hu
  rw [hloop] at h1
  refine attribRun_charsOk h1 ?_
  intro c hc
  exact htext c (List.drop_subset pos text hc)

/-! ### Character provenance of parsed dialogue text -/

theorem splitOnComma_chars :
    ∀ (l : List Char) (p : List Char), p ∈ splitOnComma l →
      ∀ c ∈ p, c ∈ l := by
  intro l
  induction l with
  | nil =>
    intro p hp c hc
    simp only [splitOnComma, List.mem_singleton] at hp
    subst hp
    exact absurd hc (List.not_mem_nil c)
  | cons a tl ih =>
    intro p hp c hc
    simp only [splitOnComma] at hp
    split at hp
    · rcases List.mem_cons.mp hp with h1 | h1
      · subst h1; exact absurd hc (List.not_mem_nil c)
      · exact List.mem_cons_of_mem _ (ih p h1 c hc)
    · rcases hsp : splitOnComma tl with _ | ⟨p0, ps⟩
      · rw [hsp] at hp
        rcases List.mem_singleton.mp hp with rfl
        rcases List.mem_singleton.mp hc with rfl
        exact List.mem_cons_self _ _
      · rw [hsp] at hp
        rcases List.mem_cons.mp hp with h1 | h1
        · subst h1
          rcases List.mem_cons.mp hc with h2 | h2
          · exact h2 ▸ List.mem_cons_self _ _
          · exact List.mem_cons_of_mem _
              (ih p0 (hsp ▸ List.mem_cons_self _ _) c h2)
        · exact List.mem_cons_of_mem _
            (ih p (hsp ▸ List.mem_cons_of_mem _ h1) c hc)

theorem joinComma_chars :
    ∀ (ps : List (List Char)) (c : Char), c ∈ joinComma ps →
      c = ',' ∨ ∃ p ∈ ps, c ∈ p := by
  intro ps
  induction ps with
  | nil => intro c hc; exact absurd hc (List.not_mem_nil c)
  | cons p0 ps ih =>
    intro c hc
    rcases ps with _ | ⟨p1, ps2⟩
    · exact Or.inr ⟨p0, List.mem_singleton_self p0, hc⟩
    · simp only [joinComma] at hc
      rcases List.mem_append.mp hc with h1 | h1
      · exact Or.inr ⟨p0, List.mem_cons_self _ _, h1⟩
      · rcases List.mem_cons.mp h1 with h2 | h2
        · exact Or.inl h2
        · rcases ih c h2 with h3 | ⟨p, hp, hcp⟩
          · exact Or.inl h3
          · exact Or.inr ⟨p, List.mem_cons_of_mem _ hp, hcp⟩

theorem suffixMem {α : Type} :
    ∀ (l : List α) (n : Nat) (x : α), x ∈ l.drop n → x ∈ l :=
  fun l n _ hp => List.drop_subset n l hp

theorem parseDialogueLine_chars {line sr tx : List Char}
    (h : parseDialogueLine line = some (sr, tx)) :
    ∀ c ∈ tx, c ∈ line ∨ c = ',' := by
  intro c hc
  unfold parseDialogueLine at h
  split at h
  · split at h
    · next f1 f2 f3 f4 f5 f6 f7 f8 rest heq =>
      split at h
      · exact absurd h (by simp)
      · simp only [Option.some_inj, Prod.mk.injEq] at h
        obtain ⟨rfl, rfl⟩ := h
        rcases joinComma_chars rest c hc with h1 | ⟨p, hp, hcp⟩
        · exact Or.inr h1
        · left
          have hps : p ∈ splitOnComma (line.drop 9) := by
            rw [heq]
            exact List.mem_cons_of_mem _ (List.mem_cons_of_mem _
              (List.mem_cons_of_mem _ (List.mem_cons_of_mem _
              (List.mem_cons_of_mem _ (List.mem_cons_of_mem _
              (List.mem_cons_of_mem _ (List.mem_cons_of_mem _ hp)))))))
          exact suffixMem line 9 c
            (splitOnComma_chars (line.drop 9) p hps c hcp)
    · exact absurd h (by simp)
  · exact absurd h (by simp)

theorem parseStylesAux_charsOk :
    ∀ (ls : List (List Char)) (st : Styles) (u : Usage) (st2 : Styles)
      (u2 : Usage), parseStylesAux ls st u = some (st2, u2) →
      usageCharsOk u → usageCharsOk u2 := by
  intro ls
  induction ls with
  | nil =>
    intro st u st2 u2 hp hu
    simp only [parseStylesAux, Option.some_inj, Prod.mk.injEq] at hp
    obtain ⟨rfl, rfl⟩ := hp
    exact hu
  | cons l rest ih =>
    intro st u st2 u2 hp hu
    rcases hl : parseStyleLine l with _ | ⟨n, f, sz⟩
    · rw [parseStylesAux, hl] at hp
      exact ih st u st2 u2 hp hu
    · simp only [parseStylesAux, hl] at hp
      by_cases hok : pyFloatOk sz = true
      · rw [if_pos hok] at hp
        exact ih _ _ st2 u2 hp (ensureFont_charsOk f hu)
      · rw [if_neg hok] at hp
        exact absurd hp (by simp)

theorem parseDialogues_charsOk :
    ∀ (ls : List (List Char)) (st : Styles) (u : Usage),
      (∀ l ∈ ls, ∀ c ∈ l, c ≠ '\n' ∧ c ≠ '\r') → usageCharsOk u →
      usageCharsOk (parseDialogues ls st u) := by
  intro ls
  induction ls with
  | nil => intro st u _ hu; exact hu
  | cons l rest ih =>
    intro st u hls hu
    have hrest : ∀ x ∈ rest, ∀ c ∈ x, c ≠ '\n' ∧ c ≠ '\r' :=
      fun x hx => hls x (List.mem_cons_of_mem _ hx)
    rcases hl : parseDialogueLine l with _ | ⟨sr, tx⟩
    · rw [parseDialogues, hl]
      exact ih st u hrest hu
    · simp only [parseDialogues, hl]
      refine ih st _ hrest (processDialogueText_charsOk ?_ _ hu)
      intro c hc
      rcases parseDialogueLine_chars hl c hc with h1 | rfl
      · exact hls l (List.mem_cons_self _ _) c h1
      · exact ⟨by decide, by decide⟩

/-! ### Scanning lemmas for schematic dialogue texts -/

theorem attribRun_nil (u : Usage) (cur : Option (List Char)) :
    attribRun u cur [] = u := by
  unfold attribRun
  rcases cur with _ | f
  · rfl
  · simp

theorem tagGo_app_none {a : List Char} (ha : ∀ x ∈ a, x ≠ '\x7b') :
    ∀ (l : List Char) (i : Nat),
      tagGo (a ++ l) i none = tagGo l (i + a.length) none := by
  induction a with
  | nil => intro l i; simp
  | cons x tl ih =>
    intro l i
    have hx : ¬x = '\x7b' := ha x (List.mem_cons_self _ _)
    have ih2 := ih (fun y hy => ha y (List.mem_cons_of_mem _ hy)) l (i + 1)
    simp only [List.cons_append, List.append_eq, tagGo, if_neg hx, ih2,
      List.length_cons]
    have harith : i + 1 + tl.length = i + (tl.length + 1) := by omega
    rw [harith]

theorem tagGo_none {a : List Char} (ha : ∀ x ∈ a, x ≠ '\x7b') (i : Nat) :
    tagGo a i none = [] := by
  induction a generalizing i with
  | nil => rfl
  | cons x tl ih =>
    have hx : ¬x = '\x7b' := ha x (List.mem_cons_self _ _)
    simp only [tagGo, if_neg hx]
    exact ih (fun y hy => ha y (List.mem_cons_of_mem _ hy)) (i + 1)

theorem tagGo_open {b : List Char} (hb : ∀ x ∈ b, x ≠ '\x7d') :
    ∀ (l : List Char) (i s : Nat),
      tagGo (b ++ '\x7d' :: l) i (some s) =
        (s, i + b.length + 1) :: tagGo l (i + b.length + 1) none := by
  induction b with
  | nil =>
    intro l i s
    simp [tagGo]
  | cons x tl ih =>
    intro l i s
    have hx : ¬x = '\x7d' := hb x (List.mem_cons_self _ _)
    have ih2 := ih (fun y hy => hb y (List.mem_cons_of_mem _ hy)) l (i + 1) s
    simp only [List.cons_append, List.append_eq, tagGo, if_neg hx, ih2,
      List.length_cons]
    have harith : i + 1 + tl.length + 1 = i + (tl.length + 1) + 1 := by omega
    rw [harith]

theorem findSub_none {a : List Char} (ha : ∀ x ∈ a, x ≠ '\\') :
    findSubFrom a pZero = none := by
  induction a with
  | nil => rfl
  | cons x tl ih =>
    have hx : ¬('\\' = x) := fun h => ha x (List.mem_cons_self _ _) h.symm
    have hsw : listStartsWith pZero (x :: tl) = false := by
      simp [pZero, listStartsWith, hx]
    have ih2 := ih (fun y hy => ha y (List.mem_cons_of_mem _ hy))
    simp [findSubFrom, hsw, ih2, List.append_eq]

theorem findSub_app {a : List Char} (ha : ∀ x ∈ a, x ≠ '\\')
    (l : List Char) :
    findSubFrom (a ++ l) pZero =
      (findSubFrom l pZero).map (· + a.length) := by
  induction a with
  | nil =>
    rcases h : findSubFrom l pZero with _ | i <;> simp [h]
  | cons x tl ih =>
    have hx : ¬('\\' = x) := fun h => ha x (List.mem_cons_self _ _) h.symm
    have hsw : listStartsWith pZero (x :: (tl ++ l)) = false := by
      simp [pZero, listStartsWith, hx]
    have ih2 := ih (fun y hy => ha y (List.mem_cons_of_mem _ hy))
    simp only [List.cons_append, List.append_eq, findSubFrom, hsw,
      Bool.false_eq_true, if_false, ih2, List.length_cons]
    rcases findSubFrom l pZero with _ | i
    · simp
    · simp
      omega

theorem takeWhile_app {p : Char → Bool} {a : List Char}
    (ha : ∀ x ∈ a, p x = true) {y : Char} (hy : p y = false)
    (l : List Char) : (a ++ y :: l).takeWhile p = a := by
  induction a with
  | nil => simp [List.takeWhile_cons, hy]
  | cons x tl ih =>
    have hx : p x = true := ha x (List.mem_cons_self _ _)
    simp only [List.cons_append, List.takeWhile_cons, hx, if_true]
    rw [ih (fun y2 hy2 => ha y2 (List.mem_cons_of_mem _ hy2))]

theorem cds_cons_ne {c : Char} (hc : c ≠ '\\') (l : List Char) :
    containsDrawingStart (c :: l) = containsDrawingStart l := by
  rcases l with _ | ⟨c2, l2⟩
  · rfl
  · rcases l2 with _ | ⟨c3, l3⟩
    · rfl
    · simp only [containsDrawingStart]
      rw [if_neg]
      intro h
      exact hc h.1

theorem cds_skip_bs {c2 : Char} (h2 : c2 ≠ 'p') (c1 : Char)
    (l : List Char) :
    containsDrawingStart (c1 :: c2 :: l) = containsDrawingStart (c2 :: l) := by
  rcases l with _ | ⟨c3, l3⟩
  · rfl
  · simp only [containsDrawingStart]
    rw [if_neg]
    intro h
    exact h2 h.2.1

theorem take_app_exact :
    ∀ (a : List Char) (y : Char) (l : List Char),
      (a ++ y :: l).take (a.length + 1) = a ++ [y] := by
  intro a
  induction a with
  | nil => intro y l; rfl
  | cons x tl ih =>
    intro y l
    simp only [List.cons_append, List.length_cons]
    rw [show tl.length + 1 + 1 = (tl.length + 1) + 1 from rfl,
      List.take_succ_cons, ih]

theorem cds_app {a : List Char} (ha : ∀ x ∈ a, x ≠ '\\') (l : List Char) :
    containsDrawingStart (a ++ l) = containsDrawingStart l := by
  induction a with
  | nil => rfl
  | cons x tl ih =>
    rw [List.cons_append, cds_cons_ne (ha x (List.mem_cons_self _ _))]
    exact ih (fun y hy => ha y (List.mem_cons_of_mem _ hy))

/-! ### Claim theorems -/

/-- C1: evaluating the scanner on the end-to-end scenario of the claim.
The dialogue regex consumes only eight commas before the text capture, so
the captured text is `,Hello {\fnWingdings}★{\fnArial} World` — the empty
`Effect` field plus its comma leak into the text, and Arial's set contains
a comma in addition to the characters the claim lists.  This contradicts
the claim (and the source's own field-layout comment), witnessing the
off-by-one in `DIALOGUE_PATTERN`. -/
theorem C1_eval :
    assParse [strChars "Style: Default,Arial,20,...",
      strChars "Dialogue: 0,0:00:00.00,0:00:02.00,Default,,0,0,0,,Hello \x7b\\fnWingdings\x7d★\x7b\\fnArial\x7d World"] =
    some [(strChars "Arial", [',', 'H', 'e', 'l', 'o', ' ', 'W', 'r', 'd']),
          (strChars "Wingdings", ['★'])] := by
  decide

/-- C2: on a well-formed ten-field dialogue record the style capture is the
4th field, but the text capture is the remainder of the line after the
*eighth* comma, not the ninth: the `Effect` field and its comma are part of
the captured text (the leading `,` below).  `(?:[^,]*,){4}` skips only
Name, MarginL, MarginR and MarginV, contradicting the claim and the
format comment above `DIALOGUE_PATTERN`. -/
theorem C2_eval :
    parseDialogueLine (strChars "Dialogue: 0,0:00:00.00,0:00:02.00,Default,,0,0,0,,Hello \x7b\\fnWingdings\x7d★\x7b\\fnArial\x7d World") =
    some (strChars "Default",
      strChars ",Hello \x7b\\fnWingdings\x7d★\x7b\\fnArial\x7d World") := by
  decide

/-- C3 counterexample: a style record whose size field (`xyz`) fails float
parsing makes the whole pass raise (`none`); the following well-formed
style record is *not* processed, contradicting the claim that such a
record is dropped individually and the builder never raises. -/
theorem C3_counterexample :
    assParse [strChars "Style: A,FontA,xyz", strChars "Style: B,FontB,20"] =
      none := by
  decide

/-- C3 amended: `_parse_styles` has no exception handling — a style record
whose font-size fails `float(...)` aborts the whole pass with an error.
When every recognised style record's size field parses as a float, the
pass succeeds and every such record's style name is present in the
resulting table. -/
theorem C3_float_failure_aborts (ls : List (List Char))
    (h : ∀ l ∈ ls, (parseStyleLine l).all (fun r => pyFloatOk r.2.2) = true) :
    ∃ r : Styles × Usage, parseStylesAux ls [] [] = some r ∧
      ∀ l ∈ ls, ∀ n f sz, parseStyleLine l = some (n, f, sz) →
        (stylesGet r.1 n).isSome := by
  have h' : ∀ l ∈ ls, ∀ n f sz, parseStyleLine l = some (n, f, sz) →
      pyFloatOk sz = true := by
    intro l hl n f sz hx
    have hh := h l hl
    rw [hx] at hh
    simpa [Option.all] using hh
  obtain ⟨r, hr, _, hall⟩ := parseStylesAux_total ls [] [] h'
  exact ⟨r, hr, hall⟩

/-- Witness for C3: a concrete file on which the hypothesis holds and the
amended conclusion follows by applying the theorem. -/
theorem C3_float_failure_aborts_witness :
    (∀ l ∈ [strChars "Style: A,FontA,20"],
      (parseStyleLine l).all (fun r => pyFloatOk r.2.2) = true) ∧
    (∃ r : Styles × Usage,
      parseStylesAux [strChars "Style: A,FontA,20"] [] [] = some r ∧
      ∀ l ∈ [strChars "Style: A,FontA,20"], ∀ n f sz,
        parseStyleLine l = some (n, f, sz) → (stylesGet r.1 n).isSome) := by
  constructor
  · decide
  · exact C3_float_failure_aborts _ (by decide)

/-- C8: the inspection estimate `floor(nonWhitespaceChars * 3 / 4)` applied
to `ass_uuencode` output recovers the length exactly for multiples of 3
and overshoots by 1 or 2 otherwise.  The encoded characters are all
`chr(v + 33)` and hence never whitespace; only the inserted line wraps
are, and they are excluded from the count. -/
theorem C8_estimate_bounds (data : List Nat) :
    (data.length % 3 = 0 → sizeEstimate (assUuencode data) = data.length) ∧
    (data.length % 3 ≠ 0 →
      data.length + 1 ≤ sizeEstimate (assUuencode data) ∧
      sizeEstimate (assUuencode data) ≤ data.length + 2) := by
  have hall : ∀ c ∈ uuEncodeGroups data,
      (fun c => !pyIsSpaceChar c) c = true := by
    intro c hc
    obtain ⟨v, rfl⟩ := uuEncodeGroups_mem data c hc
    simp [chr33_not_space]
  have hkey : sizeEstimate (assUuencode data) =
      3 * ((data.length + 2) / 3) := by
    unfold sizeEstimate assUuencode
    rw [wrapNL_filter_length (by decide), length_filter_of_all hall,
      uuEncodeGroups_length]
    omega
  exact ⟨fun h => by omega, fun h => ⟨by omega, by omega⟩⟩

/-- Witness for C8 at concrete inputs of lengths 3 and 2. -/
theorem C8_estimate_bounds_witness :
    sizeEstimate (assUuencode [1, 2, 3]) = 3 ∧
    (2 + 1 ≤ sizeEstimate (assUuencode [1, 2]) ∧
      sizeEstimate (assUuencode [1, 2]) ≤ 2 + 2) :=
  ⟨(C8_estimate_bounds [1, 2, 3]).1 (by decide),
   (C8_estimate_bounds [1, 2]).2 (by decide)⟩

/-- C4 counterexample: a directive block containing a drawing-mode-enter
marker with no `\p0` anywhere later in the line — the claim says the rest
of the line is skipped, but the code falls through (the skip only happens
when `DRAWING_END.search` succeeds) and `abc` is attributed to the base
font. -/
theorem C4_counterexample :
    processDialogueText (strChars "\x7b\\p1\x7dabc") (some (strChars "F")) [] =
      [(strChars "F", ['a', 'b', 'c'])] := by
  decide

/-- C4 amended (schema): drawing-mode skipping requires a later `\p0`.
First conjunct: for a line `{\p1}b{\p0}c` whose literal segments `b`, `c`
are brace- and backslash-free, the result is `attribRun u base c`: the
drawing text `b` between the enter block and the `\p0` exit (and the exit
block itself) contributes nothing — the right-hand side does not mention
`b`.  Second conjunct: for `{\p1}b` with no `\p0` later in the line,
nothing is skipped and `b` is attributed normally to the current font. -/
theorem C4_drawing_skip (b c : List Char) (base : Option (List Char))
    (u : Usage)
    (hb : ∀ x ∈ b, x ≠ '\x7b' ∧ x ≠ '\x7d' ∧ x ≠ '\\')
    (hc : ∀ x ∈ c, x ≠ '\x7b' ∧ x ≠ '\x7d' ∧ x ≠ '\\') :
    processDialogueText
        ('\x7b' :: '\\' :: 'p' :: '1' :: '\x7d' ::
          (b ++ '\x7b' :: '\\' :: 'p' :: '0' :: '\x7d' :: c)) base u =
      attribRun u base c ∧
    processDialogueText ('\x7b' :: '\\' :: 'p' :: '1' :: '\x7d' :: b) base u =
      attribRun u base b := by
  have hbNoBrace : ∀ x ∈ b, x ≠ '\x7b' := fun x hx => (hb x hx).1
  have hbNoBS : ∀ x ∈ b, x ≠ '\\' := fun x hx => (hb x hx).2.2
  have hcNoBrace : ∀ x ∈ c, x ≠ '\x7b' := fun x hx => (hc x hx).1
  constructor
  · -- the skipping conjunct
    have hB1 : tagBlocks ('\x7b' :: '\\' :: 'p' :: '1' :: '\x7d' ::
        (b ++ '\x7b' :: '\\' :: 'p' :: '0' :: '\x7d' :: c)) =
        [(0, 5), (5 + b.length, 5 + b.length + 5)] := by
      show (0, 5) :: tagGo (b ++ '\x7b' :: '\\' :: 'p' :: '0' :: '\x7d' :: c)
        5 none = _
      rw [tagGo_app_none hbNoBrace]
      show (0, 5) :: (5 + b.length, 5 + b.length + 5) ::
        tagGo c (5 + b.length + 5) none = _
      rw [tagGo_none hcNoBrace]
    unfold processDialogueText
    rw [hB1]
    have hdrop5 : ('\x7b' :: '\\' :: 'p' :: '1' :: '\x7d' ::
        (b ++ '\x7b' :: '\\' :: 'p' :: '0' :: '\x7d' :: c)).drop 5 =
        b ++ '\x7b' :: '\\' :: 'p' :: '0' :: '\x7d' :: c := rfl
    have hdropB : ('\x7b' :: '\\' :: 'p' :: '1' :: '\x7d' ::
        (b ++ '\x7b' :: '\\' :: 'p' :: '0' :: '\x7d' :: c)).drop
          (5 + b.length) = '\x7b' :: '\\' :: 'p' :: '0' :: '\x7d' :: c := by
      rw [← List.drop_drop, hdrop5, List.drop_left]
    have hdropEnd : ('\x7b' :: '\\' :: 'p' :: '1' :: '\x7d' ::
        (b ++ '\x7b' :: '\\' :: 'p' :: '0' :: '\x7d' :: c)).drop
          (5 + b.length + 5) = c := by
      rw [← List.drop_drop, hdropB]
      rfl
    have hfind : findSubFrom
        (b ++ '\x7b' :: '\\' :: 'p' :: '0' :: '\x7d' :: c) pZero =
        some (1 + b.length) := by
      rw [findSub_app hbNoBS]
      rfl
    have hloop : processBlocksLoop
        ('\x7b' :: '\\' :: 'p' :: '1' :: '\x7d' ::
          (b ++ '\x7b' :: '\\' :: 'p' :: '0' :: '\x7d' :: c))
        [(0, 5), (5 + b.length, 5 + b.length + 5)] u base 0 =
        (u, base, 5 + b.length + 5) := by
      simp only [processBlocksLoop, List.drop_zero, Nat.sub_self,
        Nat.sub_zero, List.take_zero, attribRun_nil]
      rw [show (('\x7b' :: '\\' :: 'p' :: '1' :: '\x7d' ::
        (b ++ '\x7b' :: '\\' :: 'p' :: '0' :: '\x7d' :: c)).take 5) =
        ['\x7b', '\\', 'p', '1', '\x7d'] from rfl]
      rw [show containsDrawingStart ['\x7b', '\\', 'p', '1', '\x7d'] = true
        from rfl]
      rw [hdrop5, hfind]
      simp only [if_true]
      -- second block
      have hsub0 : 5 + b.length - (5 + (1 + b.length) + 3) = 0 := by omega
      have hsub5 : 5 + b.length + 5 - (5 + b.length) = 5 := by omega
      simp only [processBlocksLoop, hsub0, List.take_zero, attribRun_nil,
        hsub5, hdropB]
      rw [show (('\x7b' :: '\\' :: 'p' :: '0' :: '\x7d' :: c).take 5) =
        ['\x7b', '\\', 'p', '0', '\x7d'] from rfl]
      rw [show containsDrawingStart ['\x7b', '\\', 'p', '0', '\x7d'] = false
        from rfl]
      rw [show applyOverride ['\x7b', '\\', 'p', '0', '\x7d'] base u =
        (base, u) from rfl]
      simp
    rw [hloop]
    show attribRun u base (List.drop (5 + b.length + 5) _) = _
    rw [hdropEnd]
  · -- the no-later-exit conjunct
    have hB2 : tagBlocks ('\x7b' :: '\\' :: 'p' :: '1' :: '\x7d' :: b) =
        [(0, 5)] := by
      show (0, 5) :: tagGo b 5 none = _
      rw [tagGo_none hbNoBrace]
    unfold processDialogueText
    rw [hB2]
    have hloop : processBlocksLoop ('\x7b' :: '\\' :: 'p' :: '1' :: '\x7d' :: b)
        [(0, 5)] u base 0 = (u, base, 5) := by
      simp only [processBlocksLoop, List.drop_zero, Nat.sub_self,
        Nat.sub_zero, List.take_zero, attribRun_nil]
      rw [show (('\x7b' :: '\\' :: 'p' :: '1' :: '\x7d' :: b).take 5) =
        ['\x7b', '\\', 'p', '1', '\x7d'] from rfl]
      rw [show containsDrawingStart ['\x7b', '\\', 'p', '1', '\x7d'] = true
        from rfl]
      rw [show (('\x7b' :: '\\' :: 'p' :: '1' :: '\x7d' :: b).drop 5) = b
        from rfl]
      rw [findSub_none hbNoBS]
      rw [show applyOverride ['\x7b', '\\', 'p', '1', '\x7d'] base u =
        (base, u) from rfl]
      simp
    rw [hloop]
    rfl

/-- Witness for C4 at a concrete drawing line. -/
theorem C4_drawing_skip_witness :
    processDialogueText
        (strChars "\x7b\\p1\x7dm 0 0 l 10 0\x7b\\p0\x7dhi")
        (some (strChars "F")) [] =
      attribRun [] (some (strChars "F")) (strChars "hi") ∧
    processDialogueText (strChars "\x7b\\p1\x7dm 0 0 l 10 0")
      (some (strChars "F")) [] =
      attribRun [] (some (strChars "F")) (strChars "m 0 0 l 10 0") :=
  C4_drawing_skip (strChars "m 0 0 l 10 0") (strChars "hi")
    (some (strChars "F")) [] (by decide) (by decide)

/-- C5 counterexample: a block with two `\fn` overrides.  `re.search`
returns the *first* match, so `AAA` (not `BBB`) becomes the current font:
`x` lands in `AAA`'s set and `BBB` is not even registered. -/
theorem C5_counterexample :
    processDialogueText (strChars "\x7b\\fnAAA\\fnBBB\x7dx") none [] =
      [(strChars "AAA", ['x'])] := by
  decide

/-- C5 amended (schema): in a block `{\fn n1 \fn n2}` with two override
sequences (both name runs non-empty, free of backslashes and closing
braces), the *first* one wins: the current font becomes the stripped
`n1`, which is registered, and the trailing literal text `tl` is
attributed to it.  The right-hand side does not mention `n2`. -/
theorem C5_first_override_wins (n1 n2 tl : List Char)
    (base : Option (List Char)) (u : Usage)
    (hn1 : ∀ x ∈ n1, x ≠ '\x7d' ∧ x ≠ '\\') (hn1ne : n1 ≠ [])
    (hn2 : ∀ x ∈ n2, x ≠ '\x7d' ∧ x ≠ '\\') (_hn2ne : n2 ≠ [])
    (htl : ∀ x ∈ tl, x ≠ '\x7b' ∧ x ≠ '\\')
    (hstrip : pyStrip n1 ≠ []) :
    processDialogueText
        ('\x7b' :: '\\' :: 'f' :: 'n' ::
          (n1 ++ '\\' :: 'f' :: 'n' :: (n2 ++ '\x7d' :: tl))) base u =
      attribRun (ensureFont u (pyStrip n1)) (some (pyStrip n1)) tl := by
  have htlNoBrace : ∀ x ∈ tl, x ≠ '\x7b' := fun x hx => (htl x hx).1
  have htlNoBS : ∀ x ∈ tl, x ≠ '\\' := fun x hx => (htl x hx).2
  have hn1NoBS : ∀ x ∈ n1, x ≠ '\\' := fun x hx => (hn1 x hx).2
  have hn2NoBS : ∀ x ∈ n2, x ≠ '\\' := fun x hx => (hn2 x hx).2
  have hshape : ('\x7b' :: '\\' :: 'f' :: 'n' ::
      (n1 ++ '\\' :: 'f' :: 'n' :: (n2 ++ '\x7d' :: tl))) =
      '\x7b' :: (('\\' :: 'f' :: 'n' :: (n1 ++ '\\' :: 'f' :: 'n' :: n2)) ++
        '\x7d' :: tl) := by
    simp [List.cons_append, List.append_assoc]
  rw [hshape]
  have hBno : ∀ x ∈ ('\\' :: 'f' :: 'n' :: (n1 ++ '\\' :: 'f' :: 'n' :: n2)),
      x ≠ '\x7d' := by
    intro x hx
    simp only [List.mem_cons, List.mem_append] at hx
    rcases hx with rfl | rfl | rfl | hx1 | rfl | rfl | rfl | hx2
    · decide
    · decide
    · decide
    · exact (hn1 x hx1).1
    · decide
    · decide
    · decide
    · exact (hn2 x hx2).1
  have hB : tagBlocks ('\x7b' ::
      (('\\' :: 'f' :: 'n' :: (n1 ++ '\\' :: 'f' :: 'n' :: n2)) ++
        '\x7d' :: tl)) =
      [(0, 1 + ('\\' :: 'f' :: 'n' ::
        (n1 ++ '\\' :: 'f' :: 'n' :: n2)).length + 1)] := by
    show tagGo (('\\' :: 'f' :: 'n' :: (n1 ++ '\\' :: 'f' :: 'n' :: n2)) ++
      '\x7d' :: tl) 1 (some 0) = _
    rw [tagGo_open hBno]
    rw [tagGo_none htlNoBrace]
  unfold processDialogueText
  rw [hB]
  have harith : 1 + ('\\' :: 'f' :: 'n' ::
      (n1 ++ '\\' :: 'f' :: 'n' :: n2)).length + 1 =
      (('\\' :: 'f' :: 'n' :: (n1 ++ '\\' :: 'f' :: 'n' :: n2)).length + 1)
        + 1 := by
    omega
  have htake : ('\x7b' ::
      (('\\' :: 'f' :: 'n' :: (n1 ++ '\\' :: 'f' :: 'n' :: n2)) ++
        '\x7d' :: tl)).take
      (1 + ('\\' :: 'f' :: 'n' :: (n1 ++ '\\' :: 'f' :: 'n' :: n2)).length
        + 1) =
      '\x7b' :: (('\\' :: 'f' :: 'n' :: (n1 ++ '\\' :: 'f' :: 'n' :: n2)) ++
        ['\x7d']) := by
    rw [harith, List.take_succ_cons, take_app_exact]
  have hdropE : ('\x7b' ::
      (('\\' :: 'f' :: 'n' :: (n1 ++ '\\' :: 'f' :: 'n' :: n2)) ++
        '\x7d' :: tl)).drop
      (1 + ('\\' :: 'f' :: 'n' :: (n1 ++ '\\' :: 'f' :: 'n' :: n2)).length
        + 1) = tl := by
    rw [harith, List.drop_succ_cons, ← List.drop_drop, List.drop_left]
    rfl
  have hcontent2 : '\x7b' ::
      (('\\' :: 'f' :: 'n' :: (n1 ++ '\\' :: 'f' :: 'n' :: n2)) ++
        ['\x7d']) =
      '\x7b' :: '\\' :: 'f' :: 'n' ::
        (n1 ++ '\\' :: ('f' :: 'n' :: (n2 ++ ['\x7d']))) := by
    simp [List.cons_append, List.append_assoc]
  have hcds : containsDrawingStart ('\x7b' ::
      (('\\' :: 'f' :: 'n' :: (n1 ++ '\\' :: 'f' :: 'n' :: n2)) ++
        ['\x7d'])) = false := by
    rw [hcontent2]
    rw [cds_cons_ne (by decide : '\x7b' ≠ '\\')]
    rw [cds_skip_bs (by decide : 'f' ≠ 'p')]
    rw [cds_cons_ne (by decide : 'f' ≠ '\\')]
    rw [cds_cons_ne (by decide : 'n' ≠ '\\')]
    rw [cds_app hn1NoBS]
    rw [cds_skip_bs (by decide : 'f' ≠ 'p')]
    rw [cds_cons_ne (by decide : 'f' ≠ '\\')]
    rw [cds_cons_ne (by decide : 'n' ≠ '\\')]
    rw [cds_app hn2NoBS]
    rfl
  have hname : (n1 ++ '\\' :: ('f' :: 'n' :: (n2 ++ ['\x7d']))).takeWhile
      (fun c => decide (c ≠ '\\' ∧ c ≠ '\x7d')) = n1 := by
    apply takeWhile_app
    · intro x hx
      simp only [decide_eq_true_eq]
      exact ⟨(hn1 x hx).2, (hn1 x hx).1⟩
    · decide
  have hfa : fnNameAt ('\\' :: 'f' :: 'n' ::
      (n1 ++ '\\' :: ('f' :: 'n' :: (n2 ++ ['\x7d'])))) = some n1 := by
    show (if (n1 ++ '\\' :: ('f' :: 'n' :: (n2 ++ ['\x7d']))).takeWhile
        (fun c => decide (c ≠ '\\' ∧ c ≠ '\x7d')) = [] then none
      else some ((n1 ++ '\\' :: ('f' :: 'n' :: (n2 ++ ['\x7d']))).takeWhile
        (fun c => decide (c ≠ '\\' ∧ c ≠ '\x7d')))) = some n1
    rw [hname, if_neg hn1ne]
  have hfno : findFontOverride ('\x7b' ::
      (('\\' :: 'f' :: 'n' :: (n1 ++ '\\' :: 'f' :: 'n' :: n2)) ++
        ['\x7d'])) = some n1 := by
    rw [hcontent2]
    show findFontOverride ('\\' :: 'f' :: 'n' ::
      (n1 ++ '\\' :: ('f' :: 'n' :: (n2 ++ ['\x7d'])))) = some n1
    unfold findFontOverride
    rw [hfa]
  have hover : applyOverride ('\x7b' ::
      (('\\' :: 'f' :: 'n' :: (n1 ++ '\\' :: 'f' :: 'n' :: n2)) ++
        ['\x7d'])) base u =
      (some (pyStrip n1), ensureFont u (pyStrip n1)) := by
    unfold applyOverride
    rw [hfno]
    simp only [if_neg hstrip]
  have hloop : processBlocksLoop ('\x7b' ::
      (('\\' :: 'f' :: 'n' :: (n1 ++ '\\' :: 'f' :: 'n' :: n2)) ++
        '\x7d' :: tl))
      [(0, 1 + ('\\' :: 'f' :: 'n' ::
        (n1 ++ '\\' :: 'f' :: 'n' :: n2)).length + 1)] u base 0 =
      (ensureFont u (pyStrip n1), some (pyStrip n1),
        1 + ('\\' :: 'f' :: 'n' ::
          (n1 ++ '\\' :: 'f' :: 'n' :: n2)).length + 1) := by
    simp only [processBlocksLoop, List.drop_zero, Nat.sub_self,
      Nat.sub_zero, List.take_zero, attribRun_nil]
    rw [htake, hcds, hover]
    simp
  rw [hloop]
  show attribRun (ensureFont u (pyStrip n1)) (some (pyStrip n1))
    (List.drop _ _) = _
  rw [hdropE]

/-- Witness for C5 at concrete names. -/
theorem C5_first_override_wins_witness :
    processDialogueText (strChars "\x7b\\fnAAA\\fnBBB\x7dxy")
      (some (strChars "F")) [] =
      attribRun (ensureFont [] (pyStrip (strChars "AAA")))
        (some (pyStrip (strChars "AAA"))) (strChars "xy") :=
  C5_first_override_wins (strChars "AAA") (strChars "BBB") (strChars "xy")
    (some (strChars "F")) [] (by decide) (by decide) (by decide) (by decide)
    (by decide) (by decide)

/-- C6 counterexample: a block containing both `\p1` and `\p0`, with a
later `\p0` in the line.  The claim says the pair cancels in-block, but
the code only checks for a drawing start and then searches for `\p0`
*after* the block: `abc` is skipped, the `\fnX` override of the block is
never applied, and `def` is attributed to the base font `F`. -/
theorem C6_counterexample :
    processDialogueText (strChars "\x7b\\p1\\p0\\fnX\x7dabc\x7b\\p0\x7ddef")
      (some (strChars "F")) [] =
      [(strChars "F", ['d', 'e', 'f'])] := by
  decide

/-- C6 amended (schema): a block containing a drawing enter/exit pair and
a `\fn` override acts as a non-drawing directive *provided no `\p0`
occurs later in the line*: no skipping happens, the override still
applies, and the trailing text `tl` is attributed to the new font.  (When
a `\p0` does occur later, skipping still triggers and the override is
lost — see the counterexample.) -/
theorem C6_pair_no_later_exit (nm tl : List Char)
    (base : Option (List Char)) (u : Usage)
    (hnm : ∀ x ∈ nm, x ≠ '\x7d' ∧ x ≠ '\\') (hnmne : nm ≠ [])
    (htl : ∀ x ∈ tl, x ≠ '\x7b' ∧ x ≠ '\\')
    (hstrip : pyStrip nm ≠ []) :
    processDialogueText
        ('\x7b' :: '\\' :: 'p' :: '1' :: '\\' :: 'p' :: '0' ::
          '\\' :: 'f' :: 'n' :: (nm ++ '\x7d' :: tl)) base u =
      attribRun (ensureFont u (pyStrip nm)) (some (pyStrip nm)) tl := by
  have htlNoBrace : ∀ x ∈ tl, x ≠ '\x7b' := fun x hx => (htl x hx).1
  have htlNoBS : ∀ x ∈ tl, x ≠ '\\' := fun x hx => (htl x hx).2
  have hshape : ('\x7b' :: '\\' :: 'p' :: '1' :: '\\' :: 'p' :: '0' ::
      '\\' :: 'f' :: 'n' :: (nm ++ '\x7d' :: tl)) =
      '\x7b' :: (('\\' :: 'p' :: '1' :: '\\' :: 'p' :: '0' ::
        '\\' :: 'f' :: 'n' :: nm) ++ '\x7d' :: tl) := by
    simp [List.cons_append]
  rw [hshape]
  have hBno : ∀ x ∈ ('\\' :: 'p' :: '1' :: '\\' :: 'p' :: '0' ::
      '\\' :: 'f' :: 'n' :: nm), x ≠ '\x7d' := by
    intro x hx
    simp only [List.mem_cons] at hx
    rcases hx with rfl | rfl | rfl | rfl | rfl | rfl | rfl | rfl | rfl | hx1
    · decide
    · decide
    · decide
    · decide
    · decide
    · decide
    · decide
    · decide
    · decide
    · exact (hnm x hx1).1
  have hB : tagBlocks ('\x7b' :: (('\\' :: 'p' :: '1' :: '\\' :: 'p' :: '0' ::
      '\\' :: 'f' :: 'n' :: nm) ++ '\x7d' :: tl)) =
      [(0, 1 + ('\\' :: 'p' :: '1' :: '\\' :: 'p' :: '0' ::
        '\\' :: 'f' :: 'n' :: nm).length + 1)] := by
    show tagGo (('\\' :: 'p' :: '1' :: '\\' :: 'p' :: '0' ::
      '\\' :: 'f' :: 'n' :: nm) ++ '\x7d' :: tl) 1 (some 0) = _
    rw [tagGo_open hBno]
    rw [tagGo_none htlNoBrace]
  unfold processDialogueText
  rw [hB]
  have harith : 1 + ('\\' :: 'p' :: '1' :: '\\' :: 'p' :: '0' ::
      '\\' :: 'f' :: 'n' :: nm).length + 1 =
      (('\\' :: 'p' :: '1' :: '\\' :: 'p' :: '0' ::
        '\\' :: 'f' :: 'n' :: nm).length + 1) + 1 := by
    omega
  have htake : ('\x7b' :: (('\\' :: 'p' :: '1' :: '\\' :: 'p' :: '0' ::
      '\\' :: 'f' :: 'n' :: nm) ++ '\x7d' :: tl)).take
      (1 + ('\\' :: 'p' :: '1' :: '\\' :: 'p' :: '0' ::
        '\\' :: 'f' :: 'n' :: nm).length + 1) =
      '\x7b' :: (('\\' :: 'p' :: '1' :: '\\' :: 'p' :: '0' ::
        '\\' :: 'f' :: 'n' :: nm) ++ ['\x7d']) := by
    rw [harith, List.take_succ_cons, take_app_exact]
  have hdropE : ('\x7b' :: (('\\' :: 'p' :: '1' :: '\\' :: 'p' :: '0' ::
      '\\' :: 'f' :: 'n' :: nm) ++ '\x7d' :: tl)).drop
      (1 + ('\\' :: 'p' :: '1' :: '\\' :: 'p' :: '0' ::
        '\\' :: 'f' :: 'n' :: nm).length + 1) = tl := by
    rw [harith, List.drop_succ_cons, ← List.drop_drop, List.drop_left]
    rfl
  have hcontent2 : '\x7b' :: (('\\' :: 'p' :: '1' :: '\\' :: 'p' :: '0' ::
      '\\' :: 'f' :: 'n' :: nm) ++ ['\x7d']) =
      '\x7b' :: '\\' :: 'p' :: '1' :: '\\' :: 'p' :: '0' ::
        '\\' :: 'f' :: 'n' :: (nm ++ ['\x7d']) := by
    simp [List.cons_append]
  have hname : (nm ++ ['\x7d']).takeWhile
      (fun c => decide (c ≠ '\\' ∧ c ≠ '\x7d')) = nm := by
    apply takeWhile_app
    · intro x hx
      simp only [decide_eq_true_eq]
      exact ⟨(hnm x hx).2, (hnm x hx).1⟩
    · decide
  have hfa : fnNameAt ('\\' :: 'f' :: 'n' :: (nm ++ ['\x7d'])) =
      some nm := by
    show (if (nm ++ ['\x7d']).takeWhile
        (fun c => decide (c ≠ '\\' ∧ c ≠ '\x7d')) = [] then none
      else some ((nm ++ ['\x7d']).takeWhile
        (fun c => decide (c ≠ '\\' ∧ c ≠ '\x7d')))) = some nm
    rw [hname, if_neg hnmne]
  have hfno : findFontOverride ('\x7b' :: '\\' :: 'p' :: '1' :: '\\' ::
      'p' :: '0' :: '\\' :: 'f' :: 'n' :: (nm ++ ['\x7d'])) =
      some nm := by
    show findFontOverride ('\\' :: 'f' :: 'n' :: (nm ++ ['\x7d'])) = some nm
    unfold findFontOverride
    rw [hfa]
  have hover : applyOverride ('\x7b' :: (('\\' :: 'p' :: '1' :: '\\' ::
      'p' :: '0' :: '\\' :: 'f' :: 'n' :: nm) ++ ['\x7d'])) base u =
      (some (pyStrip nm), ensureFont u (pyStrip nm)) := by
    unfold applyOverride
    rw [hcontent2, hfno]
    simp only [if_neg hstrip]
  have hloop : processBlocksLoop ('\x7b' :: (('\\' :: 'p' :: '1' :: '\\' ::
      'p' :: '0' :: '\\' :: 'f' :: 'n' :: nm) ++ '\x7d' :: tl))
      [(0, 1 + ('\\' :: 'p' :: '1' :: '\\' :: 'p' :: '0' ::
        '\\' :: 'f' :: 'n' :: nm).length + 1)] u base 0 =
      (ensureFont u (pyStrip nm), some (pyStrip nm),
        1 + ('\\' :: 'p' :: '1' :: '\\' :: 'p' :: '0' ::
          '\\' :: 'f' :: 'n' :: nm).length + 1) := by
    simp only [processBlocksLoop, List.drop_zero, Nat.sub_self,
      Nat.sub_zero, List.take_zero, attribRun_nil]
    rw [htake]
    rw [show containsDrawingStart ('\x7b' :: (('\\' :: 'p' :: '1' :: '\\' ::
      'p' :: '0' :: '\\' :: 'f' :: 'n' :: nm) ++ ['\x7d'])) = true from by
      rw [hcontent2]; rfl]
    rw [hdropE, findSub_none htlNoBS, hover]
    simp
  rw [hloop]
  show attribRun (ensureFont u (pyStrip nm)) (some (pyStrip nm))
    (List.drop _ _) = _
  rw [hdropE]

/-- Witness for C6 at a concrete block. -/
theorem C6_pair_no_later_exit_witness :
    processDialogueText (strChars "\x7b\\p1\\p0\\fnX\x7dabc")
      (some (strChars "F")) [] =
      attribRun (ensureFont [] (pyStrip (strChars "X")))
        (some (pyStrip (strChars "X"))) (strChars "abc") :=
  C6_pair_no_later_exit (strChars "X") (strChars "abc")
    (some (strChars "F")) [] (by decide) (by decide) (by decide) (by decide)

/-- C7 counterexample: a file with one style record and no dialogue at
all.  `_parse_styles` registers the style's font in `font_usage`
unconditionally, so `FontA` is a key of the result even though no
dialogue line references the style — contradicting clause (a) of the
claim. -/
theorem C7_counterexample :
    assParse [strChars "Style: S,FontA,20"] =
      some [(strChars "FontA", [])] := by
  decide

/-- C7 amended: every key of the result mapping is either (a) the declared
(stripped) font name of some `Style:` record in the file — whether or not
any dialogue references that style — or (b) a name with non-empty strip
appearing in a `\fn` override sequence inside some directive block of some
dialogue line's text (the code registers overrides from every block it
iterates over, including blocks located inside skipped drawing regions). -/
theorem C7_key_provenance (ls : List (List Char)) (u : Usage) (k : List Char)
    (h1 : assParse ls = some u) (h2 : usageMem u k = true) :
    (∃ l ∈ ls, ∃ n sz, parseStyleLine l = some (n, k, sz)) ∨
    (∃ l ∈ ls, ∃ sr tx, parseDialogueLine l = some (sr, tx) ∧
      overrideInText tx k) := by
  unfold assParse at h1
  rcases hsty : parseStylesAux ls [] [] with _ | ⟨st, u0⟩
  · rw [hsty] at h1
    exact absurd h1 (by simp)
  · rw [hsty] at h1
    obtain rfl := Option.some_inj.mp h1
    rcases parseDialogues_keys ls st u0 k h2 with h3 | ⟨l, hl, sr, tx, hd, hcase⟩
    · obtain ⟨_, hbu⟩ := parseStylesAux_keys ls [] [] st u0 hsty
      rcases hbu k h3 with h4 | h4
      · exact absurd h4 (by simp [usageMem])
      · exact Or.inl h4
    · rcases hcase with ⟨r, hr, rfl⟩ | hov
      · obtain ⟨hta, _⟩ := parseStylesAux_keys ls [] [] st u0 hsty
        rcases hta (pyStrip sr) r hr with ⟨r0, hr0, _⟩ | ⟨x, hx, n1, sz1, hx2⟩
        · exact absurd hr0 (by simp [stylesGet])
        · exact Or.inl ⟨x, hx, n1, sz1, hx2⟩
      · exact Or.inr ⟨l, hl, sr, tx, hd, hov⟩

/-- Witness for C7 on a concrete file whose result mapping has the
override-registered key `Foo`. -/
theorem C7_key_provenance_witness :
    assParse [strChars "Style: S,Arial,20",
        strChars "Dialogue: a,b,c,S,,1,2,3,,x\x7b\\fnFoo\x7dy"] =
      some [(strChars "Arial", [',', 'x']), (strChars "Foo", ['y'])] ∧
    usageMem [(strChars "Arial", [',', 'x']), (strChars "Foo", ['y'])]
      (strChars "Foo") = true ∧
    ((∃ l ∈ [strChars "Style: S,Arial,20",
        strChars "Dialogue: a,b,c,S,,1,2,3,,x\x7b\\fnFoo\x7dy"],
        ∃ n sz, parseStyleLine l = some (n, strChars "Foo", sz)) ∨
     (∃ l ∈ [strChars "Style: S,Arial,20",
        strChars "Dialogue: a,b,c,S,,1,2,3,,x\x7b\\fnFoo\x7dy"],
        ∃ sr tx, parseDialogueLine l = some (sr, tx) ∧
          overrideInText tx (strChars "Foo"))) :=
  ⟨by decide, by decide,
    C7_key_provenance
      [strChars "Style: S,Arial,20",
        strChars "Dialogue: a,b,c,S,,1,2,3,,x\x7b\\fnFoo\x7dy"]
      [(strChars "Arial", [',', 'x']), (strChars "Foo", ['y'])]
      (strChars "Foo") (by decide) (by decide)⟩

/-- C9 counterexample: input content ending in two newlines and containing
no `[Fonts]` section is kept verbatim, so the retained content before the
appended section ends with *two* newlines, contradicting "exactly one". -/
theorem C9_counterexample :
    embedContent (strChars "A\n\n") (strChars "[Fonts]") =
      ['A', '\n', '\n'] ++ strChars "[Fonts]" := by
  decide

/-- C9 amended: the retained content always ends with *at least* one
newline before the appended section — one is appended only when missing,
and pre-existing trailing newlines are preserved. -/
theorem C9_trailing_newline (content sect : List Char) :
    ∃ core, embedContent content sect = core ++ sect ∧
      core ≠ [] ∧ core.getLast? = some '\n' := by
  refine ⟨ensureTrailingNL (removeFonts content), rfl, ?_, ?_⟩
  · unfold ensureTrailingNL
    split
    · next hlast =>
        intro he
        rw [he] at hlast
        simp at hlast
    · simp
  · unfold ensureTrailingNL
    split
    · next hlast => exact hlast
    · exact List.getLast?_concat _

/-- C10: every character in every usage set of the scanner's result is
printable.  The dialogue text comes from one line (no line terminators by
the line-by-line match and universal-newline reading, expressed by the
hypothesis), the attribution filter keeps only printable characters plus
`\n`/`\r` (which cannot occur), and the `\h` replacement inserts only the
printable space. -/
theorem C10_printable (ls : List (List Char))
    (hls : ∀ l ∈ ls, ∀ c ∈ l, c ≠ '\n' ∧ c ≠ '\r') (u : Usage)
    (hp : assParse ls = some u) :
    ∀ f S, usageLookup u f = some S → ∀ c ∈ S, pyIsPrintable c = true := by
  unfold assParse at hp
  rcases hsty : parseStylesAux ls [] [] with _ | ⟨st, u0⟩
  · rw [hsty] at hp
    exact absurd hp (by simp)
  · rw [hsty] at hp
    obtain rfl := Option.some_inj.mp hp
    intro f S hS c hc
    have h0 : usageCharsOk ([] : Usage) :=
      fun p hp2 => absurd hp2 (List.not_mem_nil p)
    have h1 := parseStylesAux_charsOk ls [] [] st u0 hsty h0
    have h2 := parseDialogues_charsOk ls st u0 hls h1
    exact h2 (f, S) (usageLookup_mem hS) c hc

/-- Witness for C10 on a concrete file (including a non-ASCII printable
character and an override). -/
theorem C10_printable_witness :
    (∀ l ∈ [strChars "Style: S,Arial,20",
        strChars "Dialogue: a,b,c,S,,1,2,3,,hi\x7b\\fnG\x7dok"],
      ∀ c ∈ l, c ≠ '\n' ∧ c ≠ '\r') ∧
    assParse [strChars "Style: S,Arial,20",
        strChars "Dialogue: a,b,c,S,,1,2,3,,hi\x7b\\fnG\x7dok"] =
      some [(strChars "Arial", [',', 'h', 'i']), (strChars "G", ['o', 'k'])] ∧
    (∀ f S, usageLookup
        [(strChars "Arial", [',', 'h', 'i']), (strChars "G", ['o', 'k'])] f =
        some S → ∀ c ∈ S, pyIsPrintable c = true) :=
  ⟨by decide, by decide,
    C10_printable
      [strChars "Style: S,Arial,20",
        strChars "Dialogue: a,b,c,S,,1,2,3,,hi\x7b\\fnG\x7dok"]
      (by decide)
      [(strChars "Arial", [',', 'h', 'i']), (strChars "G", ['o', 'k'])]
      (by decide)⟩

end Fusionn
